import Mathlib

/-!
Verification of the doubly-linked deque of `src/fourth.rs` (an
`Rc<RefCell<Node>>`-based list) and the singly-linked queue sketch of
`src/fifth.rs` from the "too many lists" tutorial repository.

The `Rc<RefCell<Node<T>>>` heap is embedded as an association list from
node identifiers (allocation order numbers) to node records.  A
`Link<T> = Option<Rc<RefCell<Node<T>>>>` becomes an `Option Nat` holding
the identifier of the target node.  Rust's strong reference count of a
node is then the number of `Option Nat` slots (the list's `head` and
`tail` plus every allocated node's `next` and `prev`) holding that
identifier; `Rc::try_unwrap` on a node that a local variable just took
succeeds exactly when that number is zero.
-/

set_option maxHeartbeats 1000000

universe u

variable {α : Type u}

/-- Embedding of `Node<T>` of fourth.rs: `elem: T, next: Link<T>, prev: Link<T>`. -/
structure Node (α : Type u) where
  elem : α
  next : Option Nat
  prev : Option Nat
deriving DecidableEq

/-- The heap of live `Rc<RefCell<Node<T>>>` cells, keyed by node id. -/
abbrev Store (α : Type u) := List (Nat × Node α)

/-- Dereference a node id in the heap (first entry with that key). -/
def getNode : Store α → Nat → Option (Node α)
  | [], _ => none
  | (j, n) :: rest, i => if i = j then some n else getNode rest i

/-- Mutate the node with key `i` in place (a `borrow_mut` write). -/
def setStore (st : Store α) (i : Nat) (f : Node α → Node α) : Store α :=
  st.map fun p => if p.1 = i then (p.1, f p.2) else p

/-- Deallocate the node with key `i` (the `Rc` cell is released). -/
def removeStore (st : Store α) (i : Nat) : Store α :=
  st.filter fun p => p.1 != i

/-- Embedding of `List<T>` of fourth.rs: `head: Link<T>, tail: Link<T>`, together with
the heap of nodes and a counter supplying fresh node ids. -/
structure List4 (α : Type u) where
  store : Store α
  head : Option Nat
  tail : Option Nat
  fresh : Nat
deriving DecidableEq

/-- Embedding of `List::new()`: `List { head: None, tail: None }`, empty heap. -/
def List4.new : List4 α := ⟨[], none, none, 0⟩

/-- Embedding of `Node::new(elem)`: a fresh cell with `prev: None, next: None`. -/
def Node.mkNew (elem : α) : Node α := ⟨elem, none, none⟩

/-- Embedding of `List::push_front` of fourth.rs, lines 65-83.  A fresh node is
allocated; on a non-empty list `old_head.prev` is set to the new node,
the new node's `next` to the old head and `head` to the new node; on an
empty list both `head` and `tail` become the new node. -/
def pushFront (s : List4 α) (elem : α) : List4 α :=
  let newHead := s.fresh
  let st := (newHead, Node.mkNew elem) :: s.store
  match s.head with
  | some oldHead =>
      let st1 := setStore st oldHead (fun n => { n with prev := some newHead })
      let st2 := setStore st1 newHead (fun n => { n with next := some oldHead })
      { store := st2, head := some newHead, tail := s.tail, fresh := s.fresh + 1 }
  | none =>
      { store := st, head := some newHead, tail := some newHead, fresh := s.fresh + 1 }

/-- Embedding of `List::push_back` of fourth.rs, lines 129-147 (mirror image of
`push_front`: `old_tail.next` is set to the new node, the new node's
`prev` to the old tail). -/
def pushBack (s : List4 α) (elem : α) : List4 α :=
  let newTail := s.fresh
  let st := (newTail, Node.mkNew elem) :: s.store
  match s.tail with
  | some oldTail =>
      let st1 := setStore st oldTail (fun n => { n with next := some newTail })
      let st2 := setStore st1 newTail (fun n => { n with prev := some oldTail })
      { store := st2, head := s.head, tail := some newTail, fresh := s.fresh + 1 }
  | none =>
      { store := st, head := some newTail, tail := some newTail, fresh := s.fresh + 1 }

/-- Embedding of `List::pop_front` of fourth.rs, lines 88-105.  `self.head.take()`;
on `Some(old_head)` the node's `next` is taken; a successor gets its
`prev` cleared and becomes the new head, otherwise `tail` is cleared;
finally the old node is unwrapped and freed and its payload returned.
(If `head` held an id with no allocated node - impossible through the
public API - the model returns `none` after clearing `head`.) -/
def popFront (s : List4 α) : Option α × List4 α :=
  match s.head with
  | none => (none, s)
  | some oldHead =>
    match getNode s.store oldHead with
    | none => (none, { s with head := none })
    | some oldNode =>
      let st1 := setStore s.store oldHead (fun n => { n with next := none })
      match oldNode.next with
      | some newHead =>
          let st2 := setStore st1 newHead (fun n => { n with prev := none })
          (some oldNode.elem,
           { store := removeStore st2 oldHead, head := some newHead,
             tail := s.tail, fresh := s.fresh })
      | none =>
          (some oldNode.elem,
           { store := removeStore st1 oldHead, head := none,
             tail := none, fresh := s.fresh })

/-- Embedding of `List::pop_back` of fourth.rs, lines 150-167 (mirror image of
`pop_front`, with `tail`/`prev` in place of `head`/`next`). -/
def popBack (s : List4 α) : Option α × List4 α :=
  match s.tail with
  | none => (none, s)
  | some oldTail =>
    match getNode s.store oldTail with
    | none => (none, { s with tail := none })
    | some oldNode =>
      let st1 := setStore s.store oldTail (fun n => { n with prev := none })
      match oldNode.prev with
      | some newTail =>
          let st2 := setStore st1 newTail (fun n => { n with next := none })
          (some oldNode.elem,
           { store := removeStore st2 oldTail, head := s.head,
             tail := some newTail, fresh := s.fresh })
      | none =>
          (some oldNode.elem,
           { store := removeStore st1 oldTail, head := none,
             tail := none, fresh := s.fresh })

/-- Number of `next`/`prev` fields of allocated nodes holding `some i`. -/
def fieldRefs (st : Store α) (i : Nat) : Nat :=
  (st.map (fun p => p.2.next)).count (some i) +
    (st.map (fun p => p.2.prev)).count (some i)

/-- Number of references the `List` struct itself holds on node `i`
(its `head` and `tail` fields). -/
def listRefs (s : List4 α) (i : Nat) : Nat :=
  (if s.head = some i then 1 else 0) + (if s.tail = some i then 1 else 0)

/-- The strong reference count of node `i` as seen by `Rc::try_unwrap`
after a local variable has taken one reference out: every owning
reference still stored in the structure. -/
def refCount (s : List4 α) (i : Nat) : Nat :=
  listRefs s i + fieldRefs s.store i

/-- Whether the `Rc::try_unwrap(old_head).ok().unwrap()` on line 103 of
fourth.rs would panic: replay `pop_front` up to the unwrap point and ask
whether the removed node is still referenced from the structure. -/
def popFrontPanics (s : List4 α) : Bool :=
  match s.head with
  | none => false
  | some oldHead =>
    match getNode s.store oldHead with
    | none => false
    | some oldNode =>
      let st1 := setStore s.store oldHead (fun n => { n with next := none })
      match oldNode.next with
      | some newHead =>
          let st2 := setStore st1 newHead (fun n => { n with prev := none })
          decide (refCount
            { store := st2, head := some newHead, tail := s.tail, fresh := s.fresh }
            oldHead ≠ 0)
      | none =>
          decide (refCount
            { store := st1, head := none, tail := none, fresh := s.fresh }
            oldHead ≠ 0)

/-- Whether the `Rc::try_unwrap(old_tail).ok().unwrap()` on line 165 of
fourth.rs would panic (mirror image of `popFrontPanics`). -/
def popBackPanics (s : List4 α) : Bool :=
  match s.tail with
  | none => false
  | some oldTail =>
    match getNode s.store oldTail with
    | none => false
    | some oldNode =>
      let st1 := setStore s.store oldTail (fun n => { n with prev := none })
      match oldNode.prev with
      | some newTail =>
          let st2 := setStore st1 newTail (fun n => { n with next := none })
          decide (refCount
            { store := st2, head := s.head, tail := some newTail, fresh := s.fresh }
            oldTail ≠ 0)
      | none =>
          decide (refCount
            { store := st1, head := none, tail := none, fresh := s.fresh }
            oldTail ≠ 0)

/-- Embedding of `List::peek_front` of fourth.rs, lines 110-114: a read-only view of
the head node's payload.  The receiver is `&self`, so the list is not
changed. -/
def peekFront (s : List4 α) : Option α :=
  s.head.bind fun i => (getNode s.store i).map (·.elem)

/-- Embedding of `List::peek_back` of fourth.rs, lines 169-173. -/
def peekBack (s : List4 α) : Option α :=
  s.tail.bind fun i => (getNode s.store i).map (·.elem)

/-- Writing `v` through the `RefMut<T>` returned by
`List::peek_front_mut` (fourth.rs lines 116-120): the head node's
payload is overwritten in place. -/
def pokeFront (s : List4 α) (v : α) : List4 α :=
  match s.head with
  | none => s
  | some i => { s with store := setStore s.store i (fun n => { n with elem := v }) }

/-- Writing `v` through the `RefMut<T>` returned by
`List::peek_back_mut` (fourth.rs lines 175-179). -/
def pokeBack (s : List4 α) (v : α) : List4 α :=
  match s.tail with
  | none => s
  | some i => { s with store := setStore s.store i (fun n => { n with elem := v }) }

/-- Embedding of `IntoIter<T>(List<T>)` of fourth.rs, line 195. -/
structure IntoIter (α : Type u) where
  list : List4 α
deriving DecidableEq

/-- Embedding of `List::into_iter` of fourth.rs, lines 198-200. -/
def List4.intoIter (s : List4 α) : IntoIter α := ⟨s⟩

/-- Embedding of `Iterator::next` for `IntoIter` (fourth.rs lines 205-207):
`self.0.pop_front()`. -/
def IntoIter.next (it : IntoIter α) : Option α × IntoIter α :=
  let r := popFront it.list
  (r.1, ⟨r.2⟩)

/-- Embedding of `DoubleEndedIterator::next_back` for `IntoIter` (fourth.rs lines
211-213): `self.0.pop_back()`. -/
def IntoIter.nextBack (it : IntoIter α) : Option α × IntoIter α :=
  let r := popBack it.list
  (r.1, ⟨r.2⟩)

/-- The loop body of `impl Drop for List` (fourth.rs line 188):
`while self.pop_front().is_some() {}`, with explicit fuel. -/
def dropLoop : Nat → List4 α → List4 α
  | 0, s => s
  | fuel + 1, s =>
    match popFront s with
    | (some _, s1) => dropLoop fuel s1
    | (none, s1) => s1

/-- Embedding of `Drop::drop` for `List` (fourth.rs lines 185-190): pop from the
front until `pop_front` returns `None`.  The heap size bounds the number
of successful pops, so it serves as fuel. -/
def List4.dropAll (s : List4 α) : List4 α := dropLoop s.store.length s

/-- Traversal of the heap along `next` links collecting payloads, with
fuel guarding against (impossible, by the invariant) cycles. -/
def elems (st : Store α) : Nat → Option Nat → List α
  | _, none => []
  | 0, some _ => []
  | fuel + 1, some i =>
    match getNode st i with
    | none => []
    | some n => n.elem :: elems st fuel n.next

/-- The abstract contents of a fourth.rs list, front to back. -/
def toList (s : List4 α) : List α := elems s.store s.store.length s.head

/-- The id of the first node of an id-and-payload sequence. -/
def nextId (l : List (Nat × α)) : Option Nat := l.head?.map Prod.fst

/-- The canonical heap of a doubly-linked chain holding the
id-and-payload sequence `l`, whose first node's `prev` is `p`: each
node's `next` points to the following entry and its `prev` to the
preceding one. -/
def linkup (p : Option Nat) : List (Nat × α) → Store α
  | [] => []
  | (i, e) :: rest => (i, ⟨e, nextId rest, p⟩) :: linkup (some i) rest

/-- The node ids of an id-and-payload sequence. -/
def idsOf (l : List (Nat × α)) : List Nat := l.map Prod.fst

/-- Relation `Shape s l`: the list state `s` is exactly the doubly-linked chain
holding the id-and-payload sequence `l`: its heap is (up to entry order)
the canonical chain heap, `head`/`tail` hold the first/last ids, the ids
are distinct, and every id is below the fresh-id counter. -/
def Shape (s : List4 α) (l : List (Nat × α)) : Prop :=
  s.store.Perm (linkup none l) ∧
    s.head = l.head?.map Prod.fst ∧
    s.tail = l.getLast?.map Prod.fst ∧
    (idsOf l).Nodup ∧
    ∀ i ∈ idsOf l, i < s.fresh

/-- The structural invariant of the fourth.rs list: some id-and-payload
sequence is realized. -/
def Inv4 (s : List4 α) : Prop := ∃ l : List (Nat × α), Shape s l

/-- States reachable from `List::new()` through the public mutating API
of fourth.rs (`push_front`, `push_back`, `pop_front`, `pop_back`, and
writes through `peek_front_mut` / `peek_back_mut`). -/
inductive Reachable : List4 α → Prop where
  | new : Reachable List4.new
  | pushFront {s : List4 α} (v : α) : Reachable s → Reachable (pushFront s v)
  | pushBack {s : List4 α} (v : α) : Reachable s → Reachable (pushBack s v)
  | popFront {s : List4 α} : Reachable s → Reachable (popFront s).2
  | popBack {s : List4 α} : Reachable s → Reachable (popBack s).2
  | pokeFront {s : List4 α} (v : α) : Reachable s → Reachable (pokeFront s v)
  | pokeBack {s : List4 α} (v : α) : Reachable s → Reachable (pokeBack s v)

/-- Relation `ChainIds st p c ids`: starting at link `c`, whose target's `prev`
must be `p`, following `next` once per hop visits exactly the nodes
`ids` and ends at a `None` link; every hop is prev/next consistent. -/
def ChainIds (st : Store α) : Option Nat → Option Nat → List Nat → Prop
  | _, c, [] => c = none
  | p, c, i :: rest =>
      c = some i ∧ ∃ n, getNode st i = some n ∧ n.prev = p ∧
        ChainIds st (some i) n.next rest

/-- The runtime borrow flag of a `RefCell` (std::cell semantics):
unborrowed, shared-borrowed by `n` readers, or exclusively borrowed. -/
inductive BorrowFlag where
  | free
  | reading (n : Nat)
  | writing
deriving DecidableEq

/-- Embedding of `RefCell::borrow`: succeeds unless an exclusive borrow is
outstanding (in which case the call panics, modelled as `none`). -/
def tryBorrow : BorrowFlag → Option BorrowFlag
  | .free => some (.reading 1)
  | .reading n => some (.reading (n + 1))
  | .writing => none

/-- Embedding of `RefCell::borrow_mut`: succeeds only when no borrow at all is
outstanding (otherwise the call panics, modelled as `none`). -/
def tryBorrowMut : BorrowFlag → Option BorrowFlag
  | .free => some .writing
  | .reading _ => none
  | .writing => none

/-- The fatal outcome of a conflicting `RefCell` borrow. -/
inductive Fault where
  | aliasingViolation
deriving DecidableEq

/-- Embedding of `List::peek_front_mut` of fourth.rs with the `RefCell` runtime check
made explicit: `led` gives the outstanding borrows per node; on a
non-empty list, `head.borrow_mut()` panics (an aliasing violation)
exactly when any borrow of the head node is outstanding. -/
def peekFrontMutChecked (s : List4 α) (led : Nat → BorrowFlag) :
    Except Fault (Option α) :=
  match s.head with
  | none => .ok none
  | some i =>
    match tryBorrowMut (led i) with
    | none => .error .aliasingViolation
    | some _ => .ok ((getNode s.store i).map (·.elem))

/-- Embedding of `List::peek_back_mut` of fourth.rs with the `RefCell` runtime check
made explicit. -/
def peekBackMutChecked (s : List4 α) (led : Nat → BorrowFlag) :
    Except Fault (Option α) :=
  match s.tail with
  | none => .ok none
  | some i =>
    match tryBorrowMut (led i) with
    | none => .error .aliasingViolation
    | some _ => .ok ((getNode s.store i).map (·.elem))

/-- Embedding of `List::peek_front` of fourth.rs with the `RefCell` runtime check
made explicit (`borrow` panics only against an exclusive borrow). -/
def peekFrontChecked (s : List4 α) (led : Nat → BorrowFlag) :
    Except Fault (Option α) :=
  match s.head with
  | none => .ok none
  | some i =>
    match tryBorrow (led i) with
    | none => .error .aliasingViolation
    | some _ => .ok ((getNode s.store i).map (·.elem))

/-- Embedding of `List::peek_back` of fourth.rs with the `RefCell` runtime check made
explicit. -/
def peekBackChecked (s : List4 α) (led : Nat → BorrowFlag) :
    Except Fault (Option α) :=
  match s.tail with
  | none => .ok none
  | some i =>
    match tryBorrow (led i) with
    | none => .error .aliasingViolation
    | some _ => .ok ((getNode s.store i).map (·.elem))

/-- Embedding of `Link<T> = Option<Box<Node<T>>>` of the fifth.rs sketch (lines
24-78), flattened: a link is empty or owns a node `{ elem, next }`. -/
inductive FLink (α : Type u) where
  | nil
  | node (elem : α) (next : FLink α)
deriving DecidableEq

/-- Appending at the position the fifth.rs `tailend` alias designates:
`tailend` always aims at the last node of the owning chain, so
`old_tailend.next = Some(new_tailend)` plants the new node after the
last one (or, from the empty list, at `head`). -/
def FLink.pushLast : FLink α → α → FLink α
  | .nil, v => .node v .nil
  | .node e n, v => .node e (n.pushLast v)

/-- Embedding of `List<'a, T> { head: Link<T>, tailend: Option<&'a mut Node<T>> }` of
the fifth.rs sketch.  The `tailend` field is a non-owning alias of the
chain's last node and is represented implicitly by that position. -/
structure FifthList (α : Type u) where
  head : FLink α
deriving DecidableEq

/-- Embedding of `List::new()` of the fifth.rs sketch. -/
def FifthList.new : FifthList α := ⟨.nil⟩

/-- Embedding of `push` of the fifth.rs sketch (lines 42-63): the new node goes after
`tailend` (the last node), or to `head` when the list is empty. -/
def FifthList.push (s : FifthList α) (v : α) : FifthList α :=
  ⟨s.head.pushLast v⟩

/-- Embedding of `pop` of the fifth.rs sketch (lines 65-76): take the head node,
promote its `next`, return its payload; `None` on the empty list. -/
def FifthList.pop (s : FifthList α) : Option α × FifthList α :=
  match s.head with
  | .nil => (none, s)
  | .node e n => (some e, ⟨n⟩)

/-- Abstract contents of a fifth.rs queue, front (pop end) first. -/
def FLink.toList : FLink α → List α
  | .nil => []
  | .node e n => e :: n.toList

/-- Abstract contents of a fifth.rs queue state. -/
def FifthList.toList (s : FifthList α) : List α := s.head.toList

/-- A push or pop request, used to compare operation sequences across
implementations and against the canonical stack. -/
inductive Op (α : Type u) where
  | push (v : α)
  | pop
deriving DecidableEq

/-- Run a sequence of operations against the front end of the fourth.rs
deque (`push_front` / `pop_front`), collecting every pop result. -/
def runFront : List (Op α) → List4 α → List (Option α) × List4 α
  | [], s => ([], s)
  | .push v :: ops, s => runFront ops (pushFront s v)
  | .pop :: ops, s =>
      let r := popFront s
      let rest := runFront ops r.2
      (r.1 :: rest.1, rest.2)

/-- Run a sequence of operations against the back end of the fourth.rs
deque (`push_back` / `pop_back`), collecting every pop result. -/
def runBack : List (Op α) → List4 α → List (Option α) × List4 α
  | [], s => ([], s)
  | .push v :: ops, s => runBack ops (pushBack s v)
  | .pop :: ops, s =>
      let r := popBack s
      let rest := runBack ops r.2
      (r.1 :: rest.1, rest.2)

/-- Run a sequence of operations against the fourth.rs deque used as a
queue: `push` is `push_back`, `pop` is `pop_front`. -/
def runQueue4 : List (Op α) → List4 α → List (Option α) × List4 α
  | [], s => ([], s)
  | .push v :: ops, s => runQueue4 ops (pushBack s v)
  | .pop :: ops, s =>
      let r := popFront s
      let rest := runQueue4 ops r.2
      (r.1 :: rest.1, rest.2)

/-- Run a sequence of operations against the fifth.rs queue sketch. -/
def runFifth : List (Op α) → FifthList α → List (Option α) × FifthList α
  | [], s => ([], s)
  | .push v :: ops, s => runFifth ops (s.push v)
  | .pop :: ops, s =>
      let r := s.pop
      let rest := runFifth ops r.2
      (r.1 :: rest.1, rest.2)

/-- The canonical LIFO stack on Lean lists: `push` conses, `pop` takes
the first element (`none` on the empty stack, which it leaves empty). -/
def runStack : List (Op α) → List α → List (Option α) × List α
  | [], st => ([], st)
  | .push v :: ops, st => runStack ops (v :: st)
  | .pop :: ops, st =>
      let rest := runStack ops st.tail
      (st.head? :: rest.1, rest.2)

/-! ### Heap lemmas -/

lemma getNode_setStore (st : Store α) (j : Nat) (f : Node α → Node α) (i : Nat) :
    getNode (setStore st j f) i =
      if i = j then (getNode st i).map f else getNode st i := by
  induction st with
  | nil => simp [setStore, getNode]
  | cons p rest ih =>
    obtain ⟨k, n⟩ := p
    simp only [setStore, List.map_cons] at ih ⊢
    by_cases hkj : k = j
    · rw [if_pos hkj]
      by_cases hik : i = k
      · subst hik
        rw [hkj]
        simp [getNode]
      · simp only [getNode, if_neg hik, ih]
    · rw [if_neg hkj]
      by_cases hik : i = k
      · subst hik
        simp [getNode, if_neg hkj]
      · simp only [getNode, if_neg hik, ih]

lemma keys_setStore (st : Store α) (j : Nat) (f : Node α → Node α) :
    (setStore st j f).map Prod.fst = st.map Prod.fst := by
  induction st with
  | nil => rfl
  | cons p rest ih =>
    simp only [setStore, List.map_cons] at ih ⊢
    by_cases h : p.1 = j
    · rw [if_pos h, ih]
    · rw [if_neg h, ih]

lemma setStore_of_not_mem (st : Store α) (j : Nat) (f : Node α → Node α)
    (h : j ∉ st.map Prod.fst) : setStore st j f = st := by
  induction st with
  | nil => rfl
  | cons p rest ih =>
    simp only [List.map_cons, List.mem_cons, not_or] at h
    simp only [setStore, List.map_cons] at ih ⊢
    rw [if_neg (fun hh => h.1 hh.symm), ih h.2]

lemma setStore_setStore (st : Store α) (j : Nat) (f g : Node α → Node α) :
    setStore (setStore st j f) j g = setStore st j (fun n => g (f n)) := by
  induction st with
  | nil => rfl
  | cons p rest ih =>
    obtain ⟨k, n⟩ := p
    simp only [setStore, List.map_cons] at ih ⊢
    by_cases h : k = j
    · simp [h, ih]
    · simp [h, ih]

lemma setStore_congr (st : Store α) (j : Nat) (f : Node α → Node α)
    (h : ∀ p ∈ st, p.1 = j → f p.2 = p.2) : setStore st j f = st := by
  induction st with
  | nil => rfl
  | cons p rest ih =>
    simp only [setStore, List.map_cons] at ih ⊢
    have hrest : setStore rest j f = rest := ih fun q hq => h q (List.mem_cons_of_mem _ hq)
    simp only [setStore] at hrest
    rw [hrest]
    by_cases hp : p.1 = j
    · rw [if_pos hp, h p (List.mem_cons_self _ _) hp]
    · rw [if_neg hp]

lemma setStore_append (st1 st2 : Store α) (j : Nat) (f : Node α → Node α) :
    setStore (st1 ++ st2) j f = setStore st1 j f ++ setStore st2 j f := by
  simp [setStore]

lemma getNode_removeStore (st : Store α) (j i : Nat) :
    getNode (removeStore st j) i = if i = j then none else getNode st i := by
  induction st with
  | nil => simp [removeStore, getNode]
  | cons p rest ih =>
    obtain ⟨k, n⟩ := p
    simp only [removeStore, List.filter_cons] at ih ⊢
    by_cases hkj : k = j
    · subst hkj
      simp only [bne_self_eq_false, cond_false, if_neg, Bool.false_eq_true, ite_false]
      by_cases hik : i = k
      · subst hik
        simp [ih]
      · simp [getNode, hik, ih]
    · have hb : (k != j) = true := bne_iff_ne.mpr hkj
      simp only [hb, if_true]
      by_cases hik : i = k
      · subst hik
        simp [getNode, hkj]
      · simp [getNode, hik, ih]

lemma removeStore_of_not_mem (st : Store α) (j : Nat)
    (h : j ∉ st.map Prod.fst) : removeStore st j = st := by
  induction st with
  | nil => rfl
  | cons p rest ih =>
    simp only [List.map_cons, List.mem_cons, not_or] at h
    have hb : (p.1 != j) = true := bne_iff_ne.mpr (fun hh => h.1 hh.symm)
    simp only [removeStore, List.filter_cons, hb, if_true] at ih ⊢
    rw [ih h.2]

lemma removeStore_append (st1 st2 : Store α) (j : Nat) :
    removeStore (st1 ++ st2) j = removeStore st1 j ++ removeStore st2 j := by
  simp [removeStore]

lemma setStore_perm {st st' : Store α} (h : st.Perm st') (j : Nat) (f : Node α → Node α) :
    (setStore st j f).Perm (setStore st' j f) := h.map _

lemma removeStore_perm {st st' : Store α} (h : st.Perm st') (j : Nat) :
    (removeStore st j).Perm (removeStore st' j) := h.filter _

lemma keys_perm {st st' : Store α} (h : st.Perm st') :
    (st.map Prod.fst).Perm (st'.map Prod.fst) := h.map _

lemma getNode_eq_some_of_mem {st : Store α} {j : Nat} {n : Node α}
    (h : (j, n) ∈ st) (hk : (st.map Prod.fst).Nodup) : getNode st j = some n := by
  induction st with
  | nil => simp at h
  | cons p rest ih =>
    obtain ⟨k, m⟩ := p
    simp only [List.mem_cons] at h
    simp only [List.map_cons, List.nodup_cons] at hk
    rcases h with h | h
    · injection h with h1 h2
      subst h1; subst h2
      simp [getNode]
    · have hjk : j ≠ k := by
        rintro rfl
        exact hk.1 (List.mem_map_of_mem Prod.fst h)
      simp only [getNode, if_neg hjk]
      exact ih h hk.2

lemma mem_of_getNode_eq_some {st : Store α} {j : Nat} {n : Node α}
    (h : getNode st j = some n) : (j, n) ∈ st := by
  induction st with
  | nil => simp [getNode] at h
  | cons p rest ih =>
    obtain ⟨k, m⟩ := p
    by_cases hjk : j = k
    · subst hjk
      simp only [getNode, if_pos rfl] at h
      injection h with h
      subst h
      simp
    · simp only [getNode, if_neg hjk] at h
      exact List.mem_cons_of_mem _ (ih h)

lemma getNode_perm {st st' : Store α} (h : st.Perm st')
    (hk : (st.map Prod.fst).Nodup) (i : Nat) : getNode st i = getNode st' i := by
  cases hg : getNode st' i with
  | some n =>
      exact getNode_eq_some_of_mem (h.mem_iff.mpr (mem_of_getNode_eq_some hg)) hk
  | none =>
      cases hg' : getNode st i with
      | none => rfl
      | some m =>
          exfalso
          have hk' : (st'.map Prod.fst).Nodup := (keys_perm h).nodup hk
          have := getNode_eq_some_of_mem (h.mem_iff.mp (mem_of_getNode_eq_some hg')) hk'
          rw [hg] at this
          cases this

/-! ### Canonical chain heap lemmas -/

lemma keys_linkup (l : List (Nat × α)) : ∀ p, (linkup p l).map Prod.fst = idsOf l := by
  induction l with
  | nil => intro p; rfl
  | cons q rest ih =>
      intro p
      obtain ⟨i, e⟩ := q
      simp only [linkup, List.map_cons, idsOf] at ih ⊢
      rw [ih]

lemma linkup_length (l : List (Nat × α)) : ∀ p, (linkup p l).length = l.length := by
  induction l with
  | nil => intro p; rfl
  | cons q rest ih =>
      intro p
      obtain ⟨i, e⟩ := q
      simp only [linkup, List.length_cons, ih]

lemma getNode_linkup_self (i : Nat) (e : α) (rest : List (Nat × α)) (p : Option Nat) :
    getNode (linkup p ((i, e) :: rest)) i = some ⟨e, nextId rest, p⟩ := by
  simp [linkup, getNode]

lemma getNode_linkup_ne (i : Nat) (e : α) (rest : List (Nat × α)) (p : Option Nat)
    (j : Nat) (h : j ≠ i) :
    getNode (linkup p ((i, e) :: rest)) j = getNode (linkup (some i) rest) j := by
  simp [linkup, getNode, h]

lemma getNode_linkup_not_mem (l : List (Nat × α)) :
    ∀ p j, j ∉ idsOf l → getNode (linkup p l) j = none := by
  induction l with
  | nil => intro p j _; rfl
  | cons q rest ih =>
      intro p j hj
      obtain ⟨i, e⟩ := q
      simp only [idsOf, List.map_cons, List.mem_cons, not_or] at hj
      rw [getNode_linkup_ne i e rest p j hj.1]
      exact ih _ _ hj.2

lemma getNode_linkup_mem (l : List (Nat × α)) :
    ∀ p j, j ∈ idsOf l → ∃ n, getNode (linkup p l) j = some n := by
  induction l with
  | nil => intro p j hj; simp [idsOf] at hj
  | cons q rest ih =>
      intro p j hj
      obtain ⟨i, e⟩ := q
      by_cases hji : j = i
      · subst hji
        exact ⟨_, getNode_linkup_self j e rest p⟩
      · simp only [idsOf, List.map_cons, List.mem_cons] at hj
        rcases hj with hj | hj
        · exact absurd hj hji
        · rw [getNode_linkup_ne i e rest p j hji]
          exact ih _ _ hj

lemma mem_of_getLastEq {β : Type u} {l : List β} {x : β} (h : l.getLast? = some x) :
    x ∈ l := by
  obtain ⟨hne, hx⟩ := List.mem_getLast?_eq_getLast (Option.mem_def.mpr h)
  rw [hx]
  exact List.getLast_mem hne

lemma linkup_last_next (l : List (Nat × α)) :
    ∀ p t e, l.getLast? = some (t, e) → (idsOf l).Nodup →
      ∀ q ∈ linkup p l, q.1 = t → q.2.next = none := by
  induction l with
  | nil => intro p t e h; cases h
  | cons a rest ih =>
      intro p t e h hnd q hq hqt
      obtain ⟨i, e'⟩ := a
      simp only [idsOf, List.map_cons, List.nodup_cons] at hnd
      cases hrest : rest with
      | nil =>
          subst hrest
          simp only [List.getLast?_singleton] at h
          injection h with h
          injection h with h1 h2
          subst h1
          simp only [linkup, List.mem_singleton] at hq
          subst hq
          rfl
      | cons b rest' =>
          subst hrest
          rw [List.getLast?_cons_cons] at h
          have ht : t ∈ idsOf (b :: rest') :=
            List.mem_map_of_mem Prod.fst (mem_of_getLastEq h)
          have hq' : q = (i, (⟨e', nextId (b :: rest'), p⟩ : Node α)) ∨
              q ∈ linkup (some i) (b :: rest') := List.mem_cons.mp hq
          rcases hq' with hq' | hq'
          · subst hq'
            have hit : i = t := hqt
            exact absurd (show i ∈ idsOf (b :: rest') from hit ▸ ht) hnd.1
          · exact ih _ t e h hnd.2 q hq' hqt

lemma idsOf_append (l1 l2 : List (Nat × α)) : idsOf (l1 ++ l2) = idsOf l1 ++ idsOf l2 := by
  simp [idsOf]

lemma linkup_snoc (l : List (Nat × α)) (t : Nat) (e' : α)
    (h : l.getLast? = some (t, e')) (hnd : (idsOf l).Nodup) (p : Option Nat) (f : Nat) (v : α) :
    linkup p (l ++ [(f, v)]) =
      setStore (linkup p l) t (fun n => { n with next := some f }) ++
        [(f, ⟨v, none, some t⟩)] := by
  induction l generalizing p with
  | nil => cases h
  | cons a rest ih =>
      obtain ⟨i, e⟩ := a
      simp only [idsOf, List.map_cons, List.nodup_cons] at hnd
      cases hrest : rest with
      | nil =>
          subst hrest
          simp only [List.getLast?_singleton] at h
          injection h with h
          injection h with h1 h2
          subst h1
          simp [linkup, setStore, nextId]
      | cons b rest' =>
          subst hrest
          obtain ⟨ib, eb⟩ := b
          rw [List.getLast?_cons_cons] at h
          have hit : i ≠ t := by
            rintro rfl
            exact hnd.1 (List.mem_map_of_mem Prod.fst (mem_of_getLastEq h))
          have e1 : linkup p (((i, e) :: (ib, eb) :: rest') ++ [(f, v)]) =
              (i, (⟨e, some ib, p⟩ : Node α)) ::
                linkup (some i) (((ib, eb) :: rest') ++ [(f, v)]) := rfl
          have e2 : setStore (linkup p ((i, e) :: (ib, eb) :: rest')) t
                (fun n => { n with next := some f }) =
              (i, (⟨e, some ib, p⟩ : Node α)) ::
                setStore (linkup (some i) ((ib, eb) :: rest')) t
                  (fun n => { n with next := some f }) := by
            show setStore ((i, (⟨e, some ib, p⟩ : Node α)) ::
                linkup (some i) ((ib, eb) :: rest')) t _ = _
            simp only [setStore, List.map_cons, if_neg hit]
          rw [e1, e2, ih h hnd.2, List.cons_append]

/-! ### Reference-count lemmas -/

lemma idsOf_nil : idsOf ([] : List (Nat × α)) = [] := rfl

lemma idsOf_cons (q : Nat × α) (l : List (Nat × α)) : idsOf (q :: l) = q.1 :: idsOf l := rfl

lemma count_next_linkup (l : List (Nat × α)) :
    ∀ p x, (idsOf l).Nodup →
      ((linkup p l).map (fun q => q.2.next)).count (some x) =
        if x ∈ (idsOf l).drop 1 then 1 else 0 := by
  induction l with
  | nil => intro p x _; simp [linkup, idsOf]
  | cons a rest ih =>
      intro p x hnd
      obtain ⟨i, e⟩ := a
      rw [idsOf_cons, List.nodup_cons] at hnd
      have hmap : (linkup p ((i, e) :: rest)).map (fun q => q.2.next) =
          nextId rest :: (linkup (some i) rest).map (fun q => q.2.next) := rfl
      rw [hmap, List.count_cons, ih (some i) x hnd.2]
      have hdrop : (idsOf ((i, e) :: rest)).drop 1 = idsOf rest := rfl
      rw [hdrop]
      cases rest with
      | nil => simp [nextId, idsOf]
      | cons b rest2 =>
          obtain ⟨jb, eb⟩ := b
          have hnId : nextId ((jb, eb) :: rest2) = some jb := rfl
          have hd2 : (idsOf ((jb, eb) :: rest2)).drop 1 = idsOf rest2 := rfl
          have hjbmem : jb ∉ idsOf rest2 := by
            have := hnd.2
            rw [idsOf_cons, List.nodup_cons] at this
            exact this.1
          rw [hnId, hd2, idsOf_cons]
          simp only [beq_iff_eq, Option.some.injEq]
          by_cases hxb : x = jb
          · subst hxb
            simp [hjbmem]
          · have hbx : ¬jb = x := fun h => hxb h.symm
            simp [hxb, hbx]

lemma count_prev_linkup (l : List (Nat × α)) :
    ∀ p x, (idsOf l).Nodup →
      ((linkup p l).map (fun q => q.2.prev)).count (some x) =
        (if p = some x ∧ idsOf l ≠ [] then 1 else 0) +
          (if x ∈ (idsOf l).dropLast then 1 else 0) := by
  induction l with
  | nil => intro p x _; simp [linkup, idsOf]
  | cons a rest ih =>
      intro p x hnd
      obtain ⟨i, e⟩ := a
      rw [idsOf_cons, List.nodup_cons] at hnd
      have hmap : (linkup p ((i, e) :: rest)).map (fun q => q.2.prev) =
          p :: (linkup (some i) rest).map (fun q => q.2.prev) := rfl
      rw [hmap, List.count_cons, ih (some i) x hnd.2]
      simp only [beq_iff_eq]
      cases rest with
      | nil =>
          by_cases hp : p = some x
          · simp [hp, idsOf]
          · simp [hp, idsOf]
      | cons b rest2 =>
          obtain ⟨jb, eb⟩ := b
          have hdl : (idsOf ((i, e) :: (jb, eb) :: rest2)).dropLast =
              i :: (idsOf ((jb, eb) :: rest2)).dropLast := by
            rw [idsOf_cons, idsOf_cons, List.dropLast_cons₂, ← idsOf_cons]
          rw [hdl]
          have hne : idsOf ((jb, eb) :: rest2) ≠ [] := by
            rw [idsOf_cons]
            exact List.cons_ne_nil _ _
          have hne2 : (idsOf ((i, e) :: (jb, eb) :: rest2) : List Nat) ≠ [] := by
            rw [idsOf_cons]
            exact List.cons_ne_nil _ _
          by_cases hxi : x = i
          · subst hxi
            have hxdl : x ∉ (idsOf ((jb, eb) :: rest2)).dropLast := fun hm =>
              hnd.1 (List.mem_of_mem_dropLast hm)
            have hsix : (some x : Option Nat) = some x := rfl
            by_cases hp : p = some x
            · simp [hp, hne, hne2, hxdl]
            · simp [hp, hne, hne2, hxdl]
          · have hsix : ¬(some i = some x) := by
              intro h
              exact hxi (Option.some.inj h).symm
            by_cases hp : p = some x
            · simp [hp, hne, hne2, hsix, hxi]
              by_cases hm : x ∈ (idsOf ((jb, eb) :: rest2)).dropLast <;> simp [hm]
            · simp [hp, hne, hne2, hsix, hxi]

lemma count_perm_beq {β : Type u} [BEq β] {l1 l2 : List β} (h : l1.Perm l2) (a : β) :
    l1.count a = l2.count a := by
  induction h with
  | nil => rfl
  | cons x h ih => simp [List.count_cons, ih]
  | swap x y l => simp [List.count_cons]; omega
  | trans h1 h2 ih1 ih2 => rw [ih1, ih2]

lemma fieldRefs_perm {st st' : Store α} (h : st.Perm st') (x : Nat) :
    fieldRefs st x = fieldRefs st' x := by
  unfold fieldRefs
  rw [count_perm_beq (h.map (fun p => p.2.next)) (some x),
    count_perm_beq (h.map (fun p => p.2.prev)) (some x)]

lemma fieldRefs_cons (j : Nat) (n : Node α) (st : Store α) (x : Nat) :
    fieldRefs ((j, n) :: st) x =
      ((if n.next = some x then 1 else 0) + (if n.prev = some x then 1 else 0)) +
        fieldRefs st x := by
  simp only [fieldRefs, List.map_cons, List.count_cons, beq_iff_eq]
  by_cases hn : n.next = some x <;> by_cases hp : n.prev = some x <;>
    simp [hn, hp] <;> omega

lemma fieldRefs_linkup (l : List (Nat × α)) (p : Option Nat) (x : Nat)
    (hnd : (idsOf l).Nodup) :
    fieldRefs (linkup p l) x =
      (if x ∈ (idsOf l).drop 1 then 1 else 0) +
        ((if p = some x ∧ idsOf l ≠ [] then 1 else 0) +
          (if x ∈ (idsOf l).dropLast then 1 else 0)) := by
  unfold fieldRefs
  rw [count_next_linkup l p x hnd, count_prev_linkup l p x hnd]

lemma setStore_cons_self (k : Nat) (n : Node α) (st : Store α) (f : Node α → Node α) :
    setStore ((k, n) :: st) k f = (k, f n) :: setStore st k f := by
  show (if (k, n).1 = k then ((k, n).1, f (k, n).2) else (k, n)) :: setStore st k f = _
  rw [if_pos rfl]

lemma setStore_cons_ne (k : Nat) (n : Node α) (st : Store α) (i : Nat)
    (f : Node α → Node α) (h : k ≠ i) :
    setStore ((k, n) :: st) i f = (k, n) :: setStore st i f := by
  show (if (k, n).1 = i then ((k, n).1, f (k, n).2) else (k, n)) :: setStore st i f = _
  rw [if_neg h]

lemma removeStore_cons_self (k : Nat) (n : Node α) (st : Store α) :
    removeStore ((k, n) :: st) k = removeStore st k := by
  simp [removeStore, List.filter_cons]

lemma removeStore_cons_ne (k : Nat) (n : Node α) (st : Store α) (i : Nat) (h : k ≠ i) :
    removeStore ((k, n) :: st) i = (k, n) :: removeStore st i := by
  simp [removeStore, List.filter_cons, h]

/-! ### Shape preservation -/

lemma Shape.getNodeEq {s : List4 α} {l : List (Nat × α)} (h : Shape s l) (j : Nat) :
    getNode s.store j = getNode (linkup none l) j := by
  obtain ⟨hperm, -, -, hnd, -⟩ := h
  have hkeys : (s.store.map Prod.fst).Nodup := by
    refine (keys_perm hperm).symm.nodup ?_
    rw [keys_linkup]
    exact hnd
  exact getNode_perm hperm hkeys j

lemma Shape.freshNotMem {s : List4 α} {l : List (Nat × α)} (h : Shape s l) :
    s.fresh ∉ idsOf l := fun hm => lt_irrefl _ (h.2.2.2.2 _ hm)

lemma shape_new : Shape (List4.new : List4 α) [] := by
  refine ⟨List.Perm.refl _, rfl, rfl, List.nodup_nil, ?_⟩
  intro i hi
  simp [idsOf] at hi

lemma shape_pushFront {s : List4 α} {l : List (Nat × α)} (h : Shape s l) (v : α) :
    Shape (pushFront s v) ((s.fresh, v) :: l) := by
  obtain ⟨hperm, hhead, htail, hnd, hfr⟩ := h
  have hfmem : s.fresh ∉ idsOf l := fun hm => lt_irrefl _ (hfr _ hm)
  cases l with
  | nil =>
      have hsnil : s.store = [] := hperm.eq_nil
      have hh : s.head = none := by simpa using hhead
      have hpf : pushFront s v =
          { store := (s.fresh, Node.mkNew v) :: s.store, head := some s.fresh,
            tail := some s.fresh, fresh := s.fresh + 1 } := by
        unfold pushFront
        rw [hh]
      rw [hpf, hsnil]
      refine ⟨List.Perm.refl _, rfl, rfl, ?_, ?_⟩
      · simp [idsOf]
      · intro i hi
        simp [idsOf] at hi
        subst hi
        exact Nat.lt_succ_self _
  | cons a rest =>
      obtain ⟨i0, e0⟩ := a
      have hh : s.head = some i0 := by simpa using hhead
      have hi0mem : i0 ∈ idsOf ((i0, e0) :: rest) := by
        rw [idsOf_cons]
        exact List.mem_cons_self _ _
      have hfi0 : s.fresh ≠ i0 := fun hf => hfmem (hf ▸ hi0mem)
      have hpf : pushFront s v =
          { store := setStore (setStore ((s.fresh, Node.mkNew v) :: s.store) i0
              (fun n => { n with prev := some s.fresh })) s.fresh
              (fun n => { n with next := some i0 }),
            head := some s.fresh, tail := s.tail, fresh := s.fresh + 1 } := by
        unfold pushFront
        rw [hh]
      have hfnotkeys : s.fresh ∉ (setStore s.store i0
          (fun n => { n with prev := some s.fresh })).map Prod.fst := by
        rw [keys_setStore]
        intro hm
        have hm2 := (keys_perm hperm).mem_iff.mp hm
        rw [keys_linkup] at hm2
        exact hfmem hm2
      have hi0notrest : i0 ∉ (linkup (some i0) rest).map Prod.fst := by
        rw [keys_linkup]
        rw [idsOf_cons, List.nodup_cons] at hnd
        exact hnd.1
      have hsetlink : setStore (linkup none ((i0, e0) :: rest)) i0
          (fun n => { n with prev := some s.fresh }) =
          (i0, (⟨e0, nextId rest, some s.fresh⟩ : Node α)) :: linkup (some i0) rest := by
        have hl : linkup none ((i0, e0) :: rest) =
            (i0, (⟨e0, nextId rest, none⟩ : Node α)) :: linkup (some i0) rest := rfl
        rw [hl, setStore_cons_self, setStore_of_not_mem _ _ _ hi0notrest]
      rw [hpf]
      refine ⟨?_, rfl, ?_, ?_, ?_⟩
      · rw [setStore_cons_ne _ _ _ _ _ hfi0, setStore_cons_self,
          setStore_of_not_mem _ _ _ hfnotkeys]
        have htargetlink : linkup none ((s.fresh, v) :: (i0, e0) :: rest) =
            (s.fresh, (⟨v, some i0, none⟩ : Node α)) ::
              (i0, (⟨e0, nextId rest, some s.fresh⟩ : Node α)) :: linkup (some i0) rest := rfl
        rw [htargetlink]
        refine List.Perm.cons _ ?_
        rw [← hsetlink]
        exact setStore_perm hperm i0 _
      · rw [htail, List.getLast?_cons_cons]
      · rw [idsOf_cons, List.nodup_cons]
        exact ⟨hfmem, hnd⟩
      · intro i hi
        rw [idsOf_cons, List.mem_cons] at hi
        rcases hi with rfl | hi
        · exact Nat.lt_succ_self _
        · exact lt_trans (hfr _ hi) (Nat.lt_succ_self _)

lemma shape_pushBack {s : List4 α} {l : List (Nat × α)} (h : Shape s l) (v : α) :
    Shape (pushBack s v) (l ++ [(s.fresh, v)]) := by
  obtain ⟨hperm, hhead, htail, hnd, hfr⟩ := h
  have hfmem : s.fresh ∉ idsOf l := fun hm => lt_irrefl _ (hfr _ hm)
  rcases List.eq_nil_or_concat l with rfl | ⟨l0, tb, hl⟩
  · have hsnil : s.store = [] := hperm.eq_nil
    have ht : s.tail = none := by simpa using htail
    have hpb : pushBack s v =
        { store := (s.fresh, Node.mkNew v) :: s.store, head := some s.fresh,
          tail := some s.fresh, fresh := s.fresh + 1 } := by
      unfold pushBack
      rw [ht]
    rw [hpb, hsnil]
    refine ⟨List.Perm.refl _, rfl, rfl, ?_, ?_⟩
    · simp [idsOf]
    · intro i hi
      simp [idsOf] at hi
      subst hi
      exact Nat.lt_succ_self _
  · obtain ⟨t, et⟩ := tb
    rw [List.concat_eq_append] at hl
    subst hl
    have hlast : (l0 ++ [(t, et)]).getLast? = some (t, et) := by simp
    have ht : s.tail = some t := by
      rw [htail, hlast]
      rfl
    have htmem : t ∈ idsOf (l0 ++ [(t, et)]) := by
      rw [idsOf_append]
      simp [idsOf]
    have hft : s.fresh ≠ t := fun hf => hfmem (hf ▸ htmem)
    have hpb : pushBack s v =
        { store := setStore (setStore ((s.fresh, Node.mkNew v) :: s.store) t
            (fun n => { n with next := some s.fresh })) s.fresh
            (fun n => { n with prev := some t }),
          head := s.head, tail := some s.fresh, fresh := s.fresh + 1 } := by
      unfold pushBack
      rw [ht]
    have hfnotkeys : s.fresh ∉ (setStore s.store t
        (fun n => { n with next := some s.fresh })).map Prod.fst := by
      rw [keys_setStore]
      intro hm
      have hm2 := (keys_perm hperm).mem_iff.mp hm
      rw [keys_linkup] at hm2
      exact hfmem hm2
    have hstore : setStore (setStore ((s.fresh, Node.mkNew v) :: s.store) t
        (fun n => { n with next := some s.fresh })) s.fresh
        (fun n => { n with prev := some t }) =
        (s.fresh, (⟨v, none, some t⟩ : Node α)) ::
          setStore s.store t (fun n => { n with next := some s.fresh }) := by
      rw [setStore_cons_ne _ _ _ _ _ hft, setStore_cons_self,
        setStore_of_not_mem _ _ _ hfnotkeys]
      rfl
    have hsnoc := linkup_snoc (l0 ++ [(t, et)]) t et hlast hnd none s.fresh v
    rw [hpb]
    refine ⟨?_, ?_, ?_, ?_, ?_⟩
    · rw [hstore, hsnoc]
      exact ((setStore_perm hperm t _).cons _).trans
        (List.perm_append_singleton _ _).symm
    · rw [hhead]
      have hne : l0 ++ [(t, et)] ≠ [] := by simp
      rw [List.head?_append_of_ne_nil _ hne]
    · simp
    · rw [idsOf_append, List.nodup_append]
      refine ⟨hnd, by simp [idsOf], ?_⟩
      intro a ha hb
      simp [idsOf] at hb
      subst hb
      exact hfmem ha
    · intro i hi
      rw [idsOf_append, List.mem_append] at hi
      rcases hi with hi | hi
      · exact lt_trans (hfr _ hi) (Nat.lt_succ_self _)
      · simp [idsOf] at hi
        subst hi
        exact Nat.lt_succ_self _

lemma popFront_store_perm_nil {s : List4 α} {i0 : Nat} {e0 : α}
    (h : Shape s [(i0, e0)]) :
    (setStore s.store i0 (fun n => { n with next := none })).Perm
      [(i0, (⟨e0, none, none⟩ : Node α))] := by
  obtain ⟨hperm, -, -, -, -⟩ := h
  have h1 := setStore_perm hperm i0 (fun n => { n with next := none })
  have hA : setStore (linkup none [(i0, e0)]) i0 (fun n => { n with next := none }) =
      [(i0, (⟨e0, none, none⟩ : Node α))] := by
    show setStore [(i0, (⟨e0, none, none⟩ : Node α))] i0 _ = _
    rw [setStore_cons_self]
    rfl
  rw [hA] at h1
  exact h1

lemma popFront_store_perm_cons {s : List4 α} {i0 i1 : Nat} {e0 e1 : α}
    {rest' : List (Nat × α)} (h : Shape s ((i0, e0) :: (i1, e1) :: rest')) :
    (setStore (setStore s.store i0 (fun n => { n with next := none })) i1
      (fun n => { n with prev := none })).Perm
      ((i0, (⟨e0, none, none⟩ : Node α)) :: linkup none ((i1, e1) :: rest')) := by
  obtain ⟨hperm, -, -, hnd, -⟩ := h
  rw [idsOf_cons, idsOf_cons, List.nodup_cons, List.nodup_cons] at hnd
  have hi0i1 : i0 ≠ i1 := fun hf => hnd.1 (by rw [hf]; exact List.mem_cons_self _ _)
  have hni0 : i0 ∉ (linkup (some i0) ((i1, e1) :: rest')).map Prod.fst := by
    rw [keys_linkup, idsOf_cons]
    exact hnd.1
  have hni1 : i1 ∉ (linkup (some i1) rest').map Prod.fst := by
    rw [keys_linkup]
    exact hnd.2.1
  have hA : setStore (linkup none ((i0, e0) :: (i1, e1) :: rest')) i0
      (fun n => { n with next := none }) =
      (i0, (⟨e0, none, none⟩ : Node α)) :: linkup (some i0) ((i1, e1) :: rest') := by
    show setStore ((i0, (⟨e0, some i1, none⟩ : Node α)) ::
        linkup (some i0) ((i1, e1) :: rest')) i0 _ = _
    rw [setStore_cons_self, setStore_of_not_mem _ _ _ hni0]
  have hB : setStore ((i0, (⟨e0, none, none⟩ : Node α)) ::
      linkup (some i0) ((i1, e1) :: rest')) i1 (fun n => { n with prev := none }) =
      (i0, (⟨e0, none, none⟩ : Node α)) :: linkup none ((i1, e1) :: rest') := by
    rw [setStore_cons_ne _ _ _ _ _ hi0i1]
    show _ :: setStore ((i1, (⟨e1, nextId rest', some i0⟩ : Node α)) ::
        linkup (some i1) rest') i1 _ = _
    rw [setStore_cons_self, setStore_of_not_mem _ _ _ hni1]
    rfl
  have h1 := setStore_perm (setStore_perm hperm i0 (fun n => { n with next := none })) i1
    (fun n => { n with prev := none })
  rw [hA, hB] at h1
  exact h1

lemma popFront_empty {s : List4 α} (h : s.head = none) : popFront s = (none, s) := by
  unfold popFront
  rw [h]

lemma popBack_empty {s : List4 α} (h : s.tail = none) : popBack s = (none, s) := by
  unfold popBack
  rw [h]

lemma Shape.headEq {s : List4 α} {i0 : Nat} {e0 : α} {rest : List (Nat × α)}
    (h : Shape s ((i0, e0) :: rest)) : s.head = some i0 := by
  have := h.2.1
  simpa using this

lemma Shape.getHeadNode {s : List4 α} {i0 : Nat} {e0 : α} {rest : List (Nat × α)}
    (h : Shape s ((i0, e0) :: rest)) :
    getNode s.store i0 = some ⟨e0, nextId rest, none⟩ := by
  rw [Shape.getNodeEq h i0]
  exact getNode_linkup_self i0 e0 rest none

lemma shape_popFront_nil {s : List4 α} (h : Shape s []) : popFront s = (none, s) := by
  apply popFront_empty
  have := h.2.1
  simpa using this

lemma shape_popFront_cons {s : List4 α} {i0 : Nat} {e0 : α} {rest : List (Nat × α)}
    (h : Shape s ((i0, e0) :: rest)) :
    (popFront s).1 = some e0 ∧ Shape (popFront s).2 rest := by
  have hhead := Shape.headEq h
  have hget := Shape.getHeadNode h
  have hnd := h.2.2.2.1
  rw [idsOf_cons, List.nodup_cons] at hnd
  cases rest with
  | nil =>
      have hget2 : getNode s.store i0 = some ⟨e0, none, none⟩ := hget
      have hred : popFront s = (some e0,
          { store := removeStore (setStore s.store i0
              (fun n => { n with next := none })) i0,
            head := none, tail := none, fresh := s.fresh }) := by
        unfold popFront
        rw [hhead]
        dsimp only
        rw [hget2]
      have hempty : removeStore (setStore s.store i0
          (fun n => { n with next := none })) i0 = [] := by
        have hp := removeStore_perm (popFront_store_perm_nil h) i0
        rw [removeStore_cons_self] at hp
        have : removeStore ([] : Store α) i0 = [] := rfl
        rw [this] at hp
        exact hp.eq_nil
      rw [hred]
      refine ⟨rfl, ?_, rfl, rfl, List.nodup_nil, ?_⟩
      · rw [hempty]
        exact List.Perm.refl _
      · intro i hi
        simp [idsOf] at hi
  | cons b rest' =>
      obtain ⟨i1, e1⟩ := b
      have hget2 : getNode s.store i0 = some ⟨e0, some i1, none⟩ := hget
      have hred : popFront s = (some e0,
          { store := removeStore (setStore (setStore s.store i0
              (fun n => { n with next := none })) i1
              (fun n => { n with prev := none })) i0,
            head := some i1, tail := s.tail, fresh := s.fresh }) := by
        unfold popFront
        rw [hhead]
        dsimp only
        rw [hget2]
      have hi0rest : i0 ∉ (linkup none ((i1, e1) :: rest')).map Prod.fst := by
        rw [keys_linkup]
        exact hnd.1
      have hstore : (removeStore (setStore (setStore s.store i0
          (fun n => { n with next := none })) i1
          (fun n => { n with prev := none })) i0).Perm
          (linkup none ((i1, e1) :: rest')) := by
        have hp := removeStore_perm (popFront_store_perm_cons h) i0
        rw [removeStore_cons_self, removeStore_of_not_mem _ _ hi0rest] at hp
        exact hp
      rw [hred]
      refine ⟨rfl, hstore, rfl, ?_, hnd.2, ?_⟩
      · have := h.2.2.1
        rw [List.getLast?_cons_cons] at this
        exact this
      · intro i hi
        exact h.2.2.2.2 i (by rw [idsOf_cons]; exact List.mem_cons_of_mem _ hi)

lemma popFrontPanicsFalse {s : List4 α} {l : List (Nat × α)} (h : Shape s l) :
    popFrontPanics s = false := by
  cases l with
  | nil =>
      have hh : s.head = none := by simpa using h.2.1
      unfold popFrontPanics
      rw [hh]
  | cons a rest =>
      obtain ⟨i0, e0⟩ := a
      have hhead := Shape.headEq h
      have hget := Shape.getHeadNode h
      have hnd := h.2.2.2.1
      rw [idsOf_cons, List.nodup_cons] at hnd
      cases rest with
      | nil =>
          have hget2 : getNode s.store i0 = some ⟨e0, none, none⟩ := hget
          have hfr : fieldRefs (setStore s.store i0
              (fun n => { n with next := none })) i0 = 0 := by
            rw [fieldRefs_perm (popFront_store_perm_nil h) i0, fieldRefs_cons]
            simp [fieldRefs]
          unfold popFrontPanics
          rw [hhead]
          dsimp only
          rw [hget2]
          dsimp only
          simp [refCount, listRefs, hfr]
      | cons b rest' =>
          obtain ⟨i1, e1⟩ := b
          have hget2 : getNode s.store i0 = some ⟨e0, some i1, none⟩ := hget
          have hi0i1 : i0 ≠ i1 := fun hf => hnd.1 (by
            rw [hf, idsOf_cons]
            exact List.mem_cons_self _ _)
          have hne1 : (some i1 : Option Nat) ≠ some i0 := by
            intro hx
            exact hi0i1 (Option.some.inj hx).symm
          have htail : s.tail = (((i1, e1) :: rest').getLast?).map Prod.fst := by
            have := h.2.2.1
            rw [List.getLast?_cons_cons] at this
            exact this
          have htailne : s.tail ≠ some i0 := by
            intro hx
            rw [htail] at hx
            have hgl := List.getLast?_eq_getLast_of_ne_nil
              (l := (i1, e1) :: rest') (List.cons_ne_nil _ _)
            rw [hgl] at hx
            simp only [Option.map_some', Option.some.injEq] at hx
            have hmem : ((i1, e1) :: rest').getLast (List.cons_ne_nil _ _) ∈
                (i1, e1) :: rest' := List.getLast_mem _
            have hmem2 : i0 ∈ idsOf ((i1, e1) :: rest') :=
              hx ▸ List.mem_map_of_mem Prod.fst hmem
            exact hnd.1 hmem2
          have hfr : fieldRefs (setStore (setStore s.store i0
              (fun n => { n with next := none })) i1
              (fun n => { n with prev := none })) i0 = 0 := by
            rw [fieldRefs_perm (popFront_store_perm_cons h) i0, fieldRefs_cons]
            have hflink : fieldRefs (linkup none ((i1, e1) :: rest')) i0 = 0 := by
              rw [fieldRefs_linkup _ none i0 hnd.2]
              have h1 : i0 ∉ (idsOf ((i1, e1) :: rest')).drop 1 := fun hm =>
                hnd.1 (List.drop_subset _ _ hm)
              have h2 : i0 ∉ (idsOf ((i1, e1) :: rest')).dropLast := fun hm =>
                hnd.1 (List.mem_of_mem_dropLast hm)
              rw [List.drop_one] at h1
              simp [h1, h2]
            simp [hflink]
          unfold popFrontPanics
          rw [hhead]
          dsimp only
          rw [hget2]
          dsimp only
          simp [refCount, listRefs, hfr, htailne, hne1]

lemma getNode_append_right (st1 st2 : Store α) (i : Nat)
    (h : i ∉ st1.map Prod.fst) : getNode (st1 ++ st2) i = getNode st2 i := by
  induction st1 with
  | nil => rfl
  | cons p rest ih =>
      obtain ⟨k, n⟩ := p
      simp only [List.map_cons, List.mem_cons, not_or] at h
      show getNode ((k, n) :: (rest ++ st2)) i = getNode st2 i
      simp only [getNode, if_neg h.1]
      exact ih h.2

lemma fieldRefs_append (st1 st2 : Store α) (x : Nat) :
    fieldRefs (st1 ++ st2) x = fieldRefs st1 x + fieldRefs st2 x := by
  simp only [fieldRefs, List.map_append, List.count_append]
  omega

lemma popBack_store_perm_nil {s : List4 α} {t : Nat} {et : α}
    (h : Shape s [(t, et)]) :
    (setStore s.store t (fun n => { n with prev := none })).Perm
      [(t, (⟨et, none, none⟩ : Node α))] := by
  obtain ⟨hperm, -, -, -, -⟩ := h
  have h1 := setStore_perm hperm t (fun n => { n with prev := none })
  have hA : setStore (linkup none [(t, et)]) t (fun n => { n with prev := none }) =
      [(t, (⟨et, none, none⟩ : Node α))] := by
    show setStore [(t, (⟨et, none, none⟩ : Node α))] t _ = _
    rw [setStore_cons_self]
    rfl
  rw [hA] at h1
  exact h1

lemma popBack_store_perm_snoc {s : List4 α} {l00 : List (Nat × α)}
    {tp t : Nat} {ep et : α}
    (h : Shape s ((l00 ++ [(tp, ep)]) ++ [(t, et)])) :
    (setStore (setStore s.store t (fun n => { n with prev := none })) tp
      (fun n => { n with next := none })).Perm
      (linkup none (l00 ++ [(tp, ep)]) ++ [(t, (⟨et, none, none⟩ : Node α))]) := by
  obtain ⟨hperm, -, -, hnd, -⟩ := h
  rw [idsOf_append, idsOf_append, List.nodup_append, List.nodup_append] at hnd
  have hndl0 : (idsOf (l00 ++ [(tp, ep)])).Nodup := by
    rw [idsOf_append, List.nodup_append]
    exact hnd.1
  have htnotl0 : t ∉ idsOf (l00 ++ [(tp, ep)]) := by
    intro hm
    rw [idsOf_append] at hm
    exact hnd.2.2 hm (by simp [idsOf])
  have htpmem : tp ∈ idsOf (l00 ++ [(tp, ep)]) := by
    rw [idsOf_append]
    exact List.mem_append_right _ (by simp [idsOf])
  have http : t ≠ tp := fun hf => htnotl0 (hf ▸ htpmem)
  have hlsnoc := linkup_snoc (l00 ++ [(tp, ep)]) tp ep (by simp) hndl0 none t et
  have hkeysL : (setStore (linkup none (l00 ++ [(tp, ep)])) tp
      (fun n => { n with next := some t })).map Prod.fst = idsOf (l00 ++ [(tp, ep)]) := by
    rw [keys_setStore, keys_linkup]
  have h1 := setStore_perm (setStore_perm hperm t (fun n => { n with prev := none })) tp
    (fun n => { n with next := none })
  have hA : setStore (linkup none ((l00 ++ [(tp, ep)]) ++ [(t, et)])) t
      (fun n => { n with prev := none }) =
      setStore (linkup none (l00 ++ [(tp, ep)])) tp
        (fun n => { n with next := some t }) ++ [(t, (⟨et, none, none⟩ : Node α))] := by
    rw [hlsnoc, setStore_append]
    rw [setStore_of_not_mem _ _ _ (by rw [hkeysL]; exact htnotl0)]
    rw [setStore_cons_self]
    rfl
  have hB : setStore (setStore (linkup none (l00 ++ [(tp, ep)])) tp
      (fun n => { n with next := some t }) ++ [(t, (⟨et, none, none⟩ : Node α))]) tp
      (fun n => { n with next := none }) =
      linkup none (l00 ++ [(tp, ep)]) ++ [(t, (⟨et, none, none⟩ : Node α))] := by
    rw [setStore_append, setStore_setStore]
    rw [setStore_cons_ne _ _ _ _ _ http]
    have hc : setStore (linkup none (l00 ++ [(tp, ep)])) tp
        (fun n => { ({ n with next := some t } : Node α) with next := none }) =
        setStore (linkup none (l00 ++ [(tp, ep)])) tp
        (fun n => { n with next := none }) := rfl
    rw [hc]
    rw [setStore_congr _ _ _ (fun q hq hqt => ?_)]
    · rfl
    · have hqnext : q.2.next = none :=
        linkup_last_next (l00 ++ [(tp, ep)]) none tp ep (by simp) hndl0 q hq hqt
      show ({ q.2 with next := none } : Node α) = q.2
      rw [← hqnext]
  rw [hA, hB] at h1
  exact h1

lemma Shape.tailEqSnoc {s : List4 α} {l0 : List (Nat × α)} {t : Nat} {et : α}
    (h : Shape s (l0 ++ [(t, et)])) : s.tail = some t := by
  have := h.2.2.1
  simpa using this

lemma Shape.getTailNodeSnoc {s : List4 α} {l00 : List (Nat × α)} {tp t : Nat}
    {ep et : α} (h : Shape s ((l00 ++ [(tp, ep)]) ++ [(t, et)])) :
    getNode s.store t = some ⟨et, none, some tp⟩ := by
  have hnd := h.2.2.2.1
  rw [idsOf_append, List.nodup_append] at hnd
  have hndl0 : (idsOf (l00 ++ [(tp, ep)])).Nodup := hnd.1
  have htnotl0 : t ∉ idsOf (l00 ++ [(tp, ep)]) := by
    intro hm
    exact hnd.2.2 hm (by simp [idsOf])
  rw [Shape.getNodeEq h t]
  rw [linkup_snoc (l00 ++ [(tp, ep)]) tp ep (by simp) hndl0 none t et]
  rw [getNode_append_right _ _ _ (by rw [keys_setStore, keys_linkup]; exact htnotl0)]
  simp [getNode]

lemma shape_popBack_nil {s : List4 α} (h : Shape s []) : popBack s = (none, s) := by
  apply popBack_empty
  have := h.2.2.1
  simpa using this

lemma shape_popBack_snoc {s : List4 α} {l0 : List (Nat × α)} {t : Nat} {et : α}
    (h : Shape s (l0 ++ [(t, et)])) :
    (popBack s).1 = some et ∧ Shape (popBack s).2 l0 := by
  have htail : s.tail = some t := Shape.tailEqSnoc h
  have hnd := h.2.2.2.1
  rw [idsOf_append, List.nodup_append] at hnd
  have htnotl0 : t ∉ idsOf l0 := by
    intro hm
    exact hnd.2.2 hm (by simp [idsOf])
  rcases List.eq_nil_or_concat l0 with rfl | ⟨l00, tpb, hl⟩
  · have hget2 : getNode s.store t = some ⟨et, none, none⟩ := by
      have hsing : Shape s [(t, et)] := by simpa using h
      exact Shape.getHeadNode hsing
    have hred : popBack s = (some et,
        { store := removeStore (setStore s.store t
            (fun n => { n with prev := none })) t,
          head := none, tail := none, fresh := s.fresh }) := by
      unfold popBack
      rw [htail]
      dsimp only
      rw [hget2]
    have hempty : removeStore (setStore s.store t
        (fun n => { n with prev := none })) t = [] := by
      have hp := removeStore_perm (popBack_store_perm_nil (by simpa using h)) t
      rw [removeStore_cons_self] at hp
      have : removeStore ([] : Store α) t = [] := rfl
      rw [this] at hp
      exact hp.eq_nil
    rw [hred]
    refine ⟨rfl, ?_, rfl, rfl, List.nodup_nil, ?_⟩
    · rw [hempty]
      exact List.Perm.refl _
    · intro i hi
      simp [idsOf] at hi
  · obtain ⟨tp, ep⟩ := tpb
    rw [List.concat_eq_append] at hl
    subst hl
    have hget2 : getNode s.store t = some ⟨et, none, some tp⟩ :=
      Shape.getTailNodeSnoc h
    have hred : popBack s = (some et,
        { store := removeStore (setStore (setStore s.store t
            (fun n => { n with prev := none })) tp
            (fun n => { n with next := none })) t,
          head := s.head, tail := some tp, fresh := s.fresh }) := by
      unfold popBack
      rw [htail]
      dsimp only
      rw [hget2]
    have hstore : (removeStore (setStore (setStore s.store t
        (fun n => { n with prev := none })) tp
        (fun n => { n with next := none })) t).Perm
        (linkup none (l00 ++ [(tp, ep)])) := by
      have hp := removeStore_perm (popBack_store_perm_snoc h) t
      rw [removeStore_append, removeStore_cons_self] at hp
      have hrhs : removeStore (linkup none (l00 ++ [(tp, ep)])) t ++
          removeStore ([] : Store α) t = linkup none (l00 ++ [(tp, ep)]) := by
        rw [removeStore_of_not_mem _ _ (by rw [keys_linkup]; exact htnotl0)]
        simp [removeStore]
      rw [hrhs] at hp
      exact hp
    rw [hred]
    refine ⟨rfl, hstore, ?_, by simp, hnd.1, ?_⟩
    · have := h.2.1
      rw [List.head?_append_of_ne_nil _ (by simp : l00 ++ [(tp, ep)] ≠ [])] at this
      exact this
    · intro i hi
      refine h.2.2.2.2 i ?_
      rw [idsOf_append]
      exact List.mem_append_left _ hi

lemma popBackPanicsFalse {s : List4 α} {l : List (Nat × α)} (h : Shape s l) :
    popBackPanics s = false := by
  rcases List.eq_nil_or_concat l with rfl | ⟨l0, tb, hl⟩
  · have ht : s.tail = none := by simpa using h.2.2.1
    unfold popBackPanics
    rw [ht]
  · obtain ⟨t, et⟩ := tb
    rw [List.concat_eq_append] at hl
    subst hl
    have htail : s.tail = some t := Shape.tailEqSnoc h
    have hnd := h.2.2.2.1
    rw [idsOf_append, List.nodup_append] at hnd
    have htnotl0 : t ∉ idsOf l0 := by
      intro hm
      exact hnd.2.2 hm (by simp [idsOf])
    rcases List.eq_nil_or_concat l0 with rfl | ⟨l00, tpb, hl0⟩
    · have hget2 : getNode s.store t = some ⟨et, none, none⟩ := by
        have hsing : Shape s [(t, et)] := by simpa using h
        exact Shape.getHeadNode hsing
      have hfr : fieldRefs (setStore s.store t
          (fun n => { n with prev := none })) t = 0 := by
        rw [fieldRefs_perm (popBack_store_perm_nil (by simpa using h)) t, fieldRefs_cons]
        simp [fieldRefs]
      unfold popBackPanics
      rw [htail]
      dsimp only
      rw [hget2]
      dsimp only
      simp [refCount, listRefs, hfr]
    · obtain ⟨tp, ep⟩ := tpb
      rw [List.concat_eq_append] at hl0
      subst hl0
      have hget2 : getNode s.store t = some ⟨et, none, some tp⟩ :=
        Shape.getTailNodeSnoc h
      have htpmem : tp ∈ idsOf (l00 ++ [(tp, ep)]) := by
        rw [idsOf_append]
        exact List.mem_append_right _ (by simp [idsOf])
      have http : t ≠ tp := fun hf => htnotl0 (hf ▸ htpmem)
      have hne1 : (some tp : Option Nat) ≠ some t := fun hx =>
        http (Option.some.inj hx).symm
      have hheadne : s.head ≠ some t := by
        have hh := h.2.1
        rw [List.head?_append_of_ne_nil _ (by simp : l00 ++ [(tp, ep)] ≠ [])] at hh
        cases hq : (l00 ++ [(tp, ep)]).head? with
        | none =>
            rw [List.head?_eq_none_iff] at hq
            simp at hq
        | some q =>
            rw [hq] at hh
            intro hx
            rw [hh] at hx
            simp only [Option.map_some', Option.some.injEq] at hx
            have hqmem : q ∈ l00 ++ [(tp, ep)] := by
              have : q ∈ (l00 ++ [(tp, ep)]).head? := by
                rw [hq]
                rfl
              exact List.mem_of_mem_head? this
            exact htnotl0 (hx ▸ List.mem_map_of_mem Prod.fst hqmem)
      have hfr : fieldRefs (setStore (setStore s.store t
          (fun n => { n with prev := none })) tp
          (fun n => { n with next := none })) t = 0 := by
        rw [fieldRefs_perm (popBack_store_perm_snoc h) t, fieldRefs_append,
          fieldRefs_cons]
        have hflink : fieldRefs (linkup none (l00 ++ [(tp, ep)])) t = 0 := by
          rw [fieldRefs_linkup _ none t hnd.1]
          have h1 : t ∉ (idsOf (l00 ++ [(tp, ep)])).drop 1 := fun hm =>
            htnotl0 (List.drop_subset _ _ hm)
          have h2 : t ∉ (idsOf (l00 ++ [(tp, ep)])).dropLast := fun hm =>
            htnotl0 (List.mem_of_mem_dropLast hm)
          rw [List.drop_one] at h1
          simp [h1, h2]
        have hnil : fieldRefs ([] : Store α) t = 0 := rfl
        rw [hflink, hnil]
        simp
      unfold popBackPanics
      rw [htail]
      dsimp only
      rw [hget2]
      dsimp only
      simp [refCount, listRefs, hfr, hheadne, hne1]

lemma shape_pokeFront_nil {s : List4 α} (h : Shape s []) (v : α) :
    pokeFront s v = s := by
  have hh : s.head = none := by simpa using h.2.1
  unfold pokeFront
  rw [hh]

lemma shape_pokeFront_cons {s : List4 α} {i0 : Nat} {e0 : α} {rest : List (Nat × α)}
    (h : Shape s ((i0, e0) :: rest)) (v : α) :
    Shape (pokeFront s v) ((i0, v) :: rest) := by
  have hhead := Shape.headEq h
  obtain ⟨hperm, hh, htail, hnd, hfr⟩ := h
  have hndc := hnd
  rw [idsOf_cons, List.nodup_cons] at hndc
  have hred : pokeFront s v =
      { s with store := setStore s.store i0 (fun n => { n with elem := v }) } := by
    unfold pokeFront
    rw [hhead]
  have hni0 : i0 ∉ (linkup (some i0) rest).map Prod.fst := by
    rw [keys_linkup]
    exact hndc.1
  have hset : setStore (linkup none ((i0, e0) :: rest)) i0
      (fun n => { n with elem := v }) =
      linkup none ((i0, v) :: rest) := by
    show setStore ((i0, (⟨e0, nextId rest, none⟩ : Node α)) ::
        linkup (some i0) rest) i0 _ = _
    rw [setStore_cons_self, setStore_of_not_mem _ _ _ hni0]
    rfl
  rw [hred]
  refine ⟨?_, by simpa using hh, ?_, hnd, hfr⟩
  · have hp := setStore_perm hperm i0 (fun n => { n with elem := v })
    rw [hset] at hp
    exact hp
  · rw [htail]
    cases rest with
    | nil => rfl
    | cons b rest' => rw [List.getLast?_cons_cons, List.getLast?_cons_cons]

lemma shape_pokeBack_nil {s : List4 α} (h : Shape s []) (v : α) :
    pokeBack s v = s := by
  have ht : s.tail = none := by simpa using h.2.2.1
  unfold pokeBack
  rw [ht]

lemma shape_pokeBack_snoc {s : List4 α} {l0 : List (Nat × α)} {t : Nat} {et : α}
    (h : Shape s (l0 ++ [(t, et)])) (v : α) :
    Shape (pokeBack s v) (l0 ++ [(t, v)]) := by
  have htail : s.tail = some t := Shape.tailEqSnoc h
  obtain ⟨hperm, hh, ht, hnd, hfr⟩ := h
  have hnda := hnd
  rw [idsOf_append, List.nodup_append] at hnda
  have htnotl0 : t ∉ idsOf l0 := by
    intro hm
    exact hnda.2.2 hm (by simp [idsOf])
  have hred : pokeBack s v =
      { s with store := setStore s.store t (fun n => { n with elem := v }) } := by
    unfold pokeBack
    rw [htail]
  have hset : setStore (linkup none (l0 ++ [(t, et)])) t
      (fun n => { n with elem := v }) = linkup none (l0 ++ [(t, v)]) := by
    rcases List.eq_nil_or_concat l0 with rfl | ⟨l00, tpb, hl0⟩
    · show setStore [(t, (⟨et, none, none⟩ : Node α))] t _ = _
      rw [setStore_cons_self]
      rfl
    · obtain ⟨tp, ep⟩ := tpb
      rw [List.concat_eq_append] at hl0
      subst hl0
      rw [linkup_snoc (l00 ++ [(tp, ep)]) tp ep (by simp) hnda.1 none t et,
        linkup_snoc (l00 ++ [(tp, ep)]) tp ep (by simp) hnda.1 none t v,
        setStore_append]
      rw [setStore_of_not_mem _ _ _ (by rw [keys_setStore, keys_linkup]; exact htnotl0)]
      rw [setStore_cons_self]
      rfl
  rw [hred]
  refine ⟨?_, ?_, ?_, ?_, ?_⟩
  · have hp := setStore_perm hperm t (fun n => { n with elem := v })
    rw [hset] at hp
    exact hp
  · rw [hh]
    rcases List.eq_nil_or_concat l0 with rfl | ⟨l00, tpb, hl0⟩
    · rfl
    · obtain ⟨tp, ep⟩ := tpb
      rw [List.concat_eq_append] at hl0
      subst hl0
      rw [List.head?_append_of_ne_nil _ (by simp : l00 ++ [(tp, ep)] ≠ []),
        List.head?_append_of_ne_nil _ (by simp : l00 ++ [(tp, ep)] ≠ [])]
  · rw [ht]
    simp
  · rw [idsOf_append] at hnd ⊢
    simpa [idsOf] using hnd
  · intro i hi
    refine hfr i ?_
    rw [idsOf_append] at hi ⊢
    simpa [idsOf] using hi

lemma elems_aux (l : List (Nat × α)) :
    ∀ (p : Option Nat) (st : Store α) (fuel : Nat),
      l.length ≤ fuel → (idsOf l).Nodup →
      (∀ j n, getNode (linkup p l) j = some n → getNode st j = some n) →
      elems st fuel (l.head?.map Prod.fst) = l.map Prod.snd := by
  induction l with
  | nil =>
      intro p st fuel _ _ _
      cases fuel <;> rfl
  | cons a rest ih =>
      obtain ⟨i, e⟩ := a
      intro p st fuel hfuel hnd hsub
      rw [idsOf_cons, List.nodup_cons] at hnd
      cases fuel with
      | zero => simp at hfuel
      | succ f =>
          have hget : getNode st i = some ⟨e, nextId rest, p⟩ :=
            hsub i _ (getNode_linkup_self i e rest p)
          have hstep : elems st (f + 1) (some i) = e :: elems st f (nextId rest) := by
            show (match getNode st i with
              | none => []
              | some n => n.elem :: elems st f n.next) = _
            rw [hget]
          have hsub2 : ∀ j n, getNode (linkup (some i) rest) j = some n →
              getNode st j = some n := by
            intro j n hj
            have hjmem : j ∈ idsOf rest := by
              by_contra hnm
              rw [getNode_linkup_not_mem rest (some i) j hnm] at hj
              cases hj
            have hji : j ≠ i := fun hf => hnd.1 (hf ▸ hjmem)
            refine hsub j n ?_
            rw [getNode_linkup_ne i e rest p j hji]
            exact hj
          have hrec := ih (some i) st f (by simpa using hfuel) hnd.2 hsub2
          show elems st (f + 1) (some i) = e :: rest.map Prod.snd
          rw [hstep, ← hrec]
          rfl

lemma toList_shape {s : List4 α} {l : List (Nat × α)} (h : Shape s l) :
    toList s = l.map Prod.snd := by
  have hlen : s.store.length = l.length := by
    rw [h.1.length_eq, linkup_length]
  unfold toList
  rw [h.2.1, hlen]
  exact elems_aux l none s.store l.length (le_refl _) h.2.2.2.1
    (fun j n hj => by rw [Shape.getNodeEq h j]; exact hj)

lemma inv_reachable {s : List4 α} (h : Reachable s) : Inv4 s := by
  induction h with
  | new => exact ⟨[], shape_new⟩
  | pushFront v _ ih =>
      obtain ⟨l, hl⟩ := ih
      exact ⟨_, shape_pushFront hl v⟩
  | pushBack v _ ih =>
      obtain ⟨l, hl⟩ := ih
      exact ⟨_, shape_pushBack hl v⟩
  | popFront _ ih =>
      obtain ⟨l, hl⟩ := ih
      cases l with
      | nil =>
          rw [shape_popFront_nil hl]
          exact ⟨[], hl⟩
      | cons a rest =>
          obtain ⟨i0, e0⟩ := a
          exact ⟨rest, (shape_popFront_cons hl).2⟩
  | popBack _ ih =>
      obtain ⟨l, hl⟩ := ih
      rcases List.eq_nil_or_concat l with rfl | ⟨l0, tb, hleq⟩
      · rw [shape_popBack_nil hl]
        exact ⟨[], hl⟩
      · obtain ⟨t, et⟩ := tb
        rw [List.concat_eq_append] at hleq
        subst hleq
        exact ⟨l0, (shape_popBack_snoc hl).2⟩
  | pokeFront v _ ih =>
      obtain ⟨l, hl⟩ := ih
      cases l with
      | nil =>
          rw [shape_pokeFront_nil hl]
          exact ⟨[], hl⟩
      | cons a rest =>
          obtain ⟨i0, e0⟩ := a
          exact ⟨_, shape_pokeFront_cons hl v⟩
  | pokeBack v _ ih =>
      obtain ⟨l, hl⟩ := ih
      rcases List.eq_nil_or_concat l with rfl | ⟨l0, tb, hleq⟩
      · rw [shape_pokeBack_nil hl]
        exact ⟨[], hl⟩
      · obtain ⟨t, et⟩ := tb
        rw [List.concat_eq_append] at hleq
        subst hleq
        exact ⟨_, shape_pokeBack_snoc hl v⟩

lemma runFront_sim (ops : List (Op α)) :
    ∀ (s : List4 α) (l : List (Nat × α)), Shape s l →
      (runFront ops s).1 = (runStack ops (l.map Prod.snd)).1 ∧
        ∃ l2, Shape (runFront ops s).2 l2 ∧
          (runStack ops (l.map Prod.snd)).2 = l2.map Prod.snd := by
  induction ops with
  | nil =>
      intro s l h
      exact ⟨rfl, l, h, rfl⟩
  | cons op rest ih =>
      intro s l h
      cases op with
      | push v =>
          have hrec := ih (pushFront s v) ((s.fresh, v) :: l) (shape_pushFront h v)
          simpa [runFront, runStack] using hrec
      | pop =>
          cases l with
          | nil =>
              have hpop := shape_popFront_nil h
              have hrec := ih s [] h
              simp only [runFront, runStack, hpop, List.map_nil, List.head?_nil,
                List.tail_nil] at hrec ⊢
              exact ⟨by rw [hrec.1], hrec.2⟩
          | cons a rest2 =>
              obtain ⟨i0, e0⟩ := a
              obtain ⟨hv, hs⟩ := shape_popFront_cons h
              have hrec := ih (popFront s).2 rest2 hs
              simp only [runFront, runStack, List.map_cons, List.head?_cons,
                List.tail_cons] at hrec ⊢
              exact ⟨by rw [hv, hrec.1], hrec.2⟩

lemma runBack_sim (ops : List (Op α)) :
    ∀ (s : List4 α) (l : List (Nat × α)), Shape s l →
      (runBack ops s).1 = (runStack ops ((l.map Prod.snd).reverse)).1 ∧
        ∃ l2, Shape (runBack ops s).2 l2 ∧
          (runStack ops ((l.map Prod.snd).reverse)).2 = (l2.map Prod.snd).reverse := by
  induction ops with
  | nil =>
      intro s l h
      exact ⟨rfl, l, h, rfl⟩
  | cons op rest ih =>
      intro s l h
      cases op with
      | push v =>
          have hrec := ih (pushBack s v) (l ++ [(s.fresh, v)]) (shape_pushBack h v)
          have hm : ((l ++ [(s.fresh, v)]).map Prod.snd).reverse =
              v :: (l.map Prod.snd).reverse := by simp
          rw [hm] at hrec
          simpa [runBack, runStack] using hrec
      | pop =>
          rcases List.eq_nil_or_concat l with rfl | ⟨l0, tb, hleq⟩
          · have hpop := shape_popBack_nil h
            have hrec := ih s [] h
            simp only [runBack, runStack, hpop, List.map_nil, List.reverse_nil,
              List.head?_nil, List.tail_nil] at hrec ⊢
            exact ⟨by rw [hrec.1], hrec.2⟩
          · obtain ⟨t, et⟩ := tb
            rw [List.concat_eq_append] at hleq
            subst hleq
            obtain ⟨hv, hs⟩ := shape_popBack_snoc h
            have hrec := ih (popBack s).2 l0 hs
            have hm : ((l0 ++ [(t, et)]).map Prod.snd).reverse =
                et :: (l0.map Prod.snd).reverse := by simp
            simp only [runBack, runStack, hm, List.head?_cons, List.tail_cons] at hrec ⊢
            exact ⟨by rw [hv, hrec.1], hrec.2⟩

lemma pushLast_toList (f : FLink α) (v : α) :
    (f.pushLast v).toList = f.toList ++ [v] := by
  induction f with
  | nil => rfl
  | node e n ih =>
      show e :: (n.pushLast v).toList = (e :: n.toList) ++ [v]
      rw [ih]
      rfl

lemma fifth_queue_sim (ops : List (Op α)) :
    ∀ (fs : FifthList α) (s : List4 α) (l : List (Nat × α)),
      Shape s l → fs.toList = l.map Prod.snd →
      (runFifth ops fs).1 = (runQueue4 ops s).1 := by
  induction ops with
  | nil => intro fs s l _ _; rfl
  | cons op rest ih =>
      intro fs s l h hrel
      cases op with
      | push v =>
          have hrel2 : (fs.push v).toList = ((l ++ [(s.fresh, v)]).map Prod.snd) := by
            show (fs.head.pushLast v).toList = _
            rw [pushLast_toList]
            show fs.toList ++ [v] = _
            rw [hrel]
            simp
          exact ih (fs.push v) (pushBack s v) (l ++ [(s.fresh, v)])
            (shape_pushBack h v) hrel2
      | pop =>
          cases l with
          | nil =>
              have hfs : fs.head = FLink.nil := by
                cases hh : fs.head with
                | nil => rfl
                | node e n =>
                    exfalso
                    have := hrel
                    rw [List.map_nil] at this
                    unfold FifthList.toList at this
                    rw [hh] at this
                    cases this
              have hpop4 := shape_popFront_nil h
              have hpop5 : fs.pop = (none, fs) := by
                unfold FifthList.pop
                rw [hfs]
              show ((fs.pop).1 :: (runFifth rest (fs.pop).2).1, _).1 = _
              rw [hpop5]
              have := ih fs s [] h hrel
              simp only [runQueue4, hpop4]
              rw [this]
          | cons a rest2 =>
              obtain ⟨i0, e0⟩ := a
              obtain ⟨hv, hs⟩ := shape_popFront_cons h
              obtain ⟨n, hn, hnt⟩ : ∃ n, fs.head = FLink.node e0 n ∧
                  n.toList = rest2.map Prod.snd := by
                cases hh : fs.head with
                | nil =>
                    exfalso
                    have := hrel
                    unfold FifthList.toList at this
                    rw [hh] at this
                    rw [List.map_cons] at this
                    cases this
                | node e n =>
                    have := hrel
                    unfold FifthList.toList at this
                    rw [hh] at this
                    rw [List.map_cons] at this
                    injection this with h1 h2
                    subst h1
                    exact ⟨n, rfl, h2⟩
              have hpop5 : fs.pop = (some e0, (⟨n⟩ : FifthList α)) := by
                unfold FifthList.pop
                rw [hn]
              have hrec := ih ⟨n⟩ (popFront s).2 rest2 hs hnt
              show ((fs.pop).1 :: (runFifth rest (fs.pop).2).1, _).1 = _
              rw [hpop5]
              simp only [runQueue4]
              rw [hv, hrec]

lemma dropLoop_empties :
    ∀ (fuel : Nat) (s : List4 α) (l : List (Nat × α)), Shape s l → l.length ≤ fuel →
      (dropLoop fuel s).store = [] ∧ (dropLoop fuel s).head = none ∧
        (dropLoop fuel s).tail = none := by
  intro fuel
  induction fuel with
  | zero =>
      intro s l h hle
      have hl : l = [] := List.eq_nil_of_length_eq_zero (Nat.le_zero.mp hle)
      subst hl
      have hst : s.store = [] := h.1.eq_nil
      have hh : s.head = none := by simpa using h.2.1
      have ht : s.tail = none := by simpa using h.2.2.1
      exact ⟨hst, hh, ht⟩
  | succ f ih =>
      intro s l h hle
      cases l with
      | nil =>
          have hpop := shape_popFront_nil h
          have hred : dropLoop (f + 1) s = s := by
            show (match popFront s with
              | (some _, s1) => dropLoop f s1
              | (none, s1) => s1) = s
            rw [hpop]
          rw [hred]
          have hst : s.store = [] := h.1.eq_nil
          have hh : s.head = none := by simpa using h.2.1
          have ht : s.tail = none := by simpa using h.2.2.1
          exact ⟨hst, hh, ht⟩
      | cons a rest =>
          obtain ⟨i0, e0⟩ := a
          obtain ⟨hv, hs⟩ := shape_popFront_cons h
          have hred : dropLoop (f + 1) s = dropLoop f (popFront s).2 := by
            show (match popFront s with
              | (some _, s1) => dropLoop f s1
              | (none, s1) => s1) = _
            rw [show popFront s = (some e0, (popFront s).2) from by rw [← hv]]
          rw [hred]
          exact ih (popFront s).2 rest hs (by simpa using hle)

lemma dropAll_empties {s : List4 α} {l : List (Nat × α)} (h : Shape s l) :
    (List4.dropAll s).store = [] ∧ (List4.dropAll s).head = none ∧
      (List4.dropAll s).tail = none := by
  unfold List4.dropAll
  have hlen : s.store.length = l.length := by
    rw [h.1.length_eq, linkup_length]
  rw [hlen]
  exact dropLoop_empties l.length s l h (le_refl _)

lemma peekFront_shape {s : List4 α} {l : List (Nat × α)} (h : Shape s l) :
    peekFront s = (l.map Prod.snd).head? := by
  cases l with
  | nil =>
      have hh : s.head = none := by simpa using h.2.1
      unfold peekFront
      rw [hh]
      rfl
  | cons a rest =>
      obtain ⟨i0, e0⟩ := a
      have hh := Shape.headEq h
      have hg := Shape.getHeadNode h
      unfold peekFront
      rw [hh]
      show (getNode s.store i0).map (·.elem) = _
      rw [hg]
      rfl

lemma peekBack_shape {s : List4 α} {l : List (Nat × α)} (h : Shape s l) :
    peekBack s = (l.map Prod.snd).getLast? := by
  rcases List.eq_nil_or_concat l with rfl | ⟨l0, tb, hleq⟩
  · have ht : s.tail = none := by simpa using h.2.2.1
    unfold peekBack
    rw [ht]
    rfl
  · obtain ⟨t, et⟩ := tb
    rw [List.concat_eq_append] at hleq
    subst hleq
    have ht : s.tail = some t := Shape.tailEqSnoc h
    have hg : ∃ pr, getNode s.store t = some ⟨et, none, pr⟩ := by
      rcases List.eq_nil_or_concat l0 with rfl | ⟨l00, tpb, hleq0⟩
      · refine ⟨none, ?_⟩
        have hsing : Shape s [(t, et)] := by simpa using h
        exact Shape.getHeadNode hsing
      · obtain ⟨tp, ep⟩ := tpb
        rw [List.concat_eq_append] at hleq0
        subst hleq0
        exact ⟨some tp, Shape.getTailNodeSnoc h⟩
    obtain ⟨pr, hg⟩ := hg
    unfold peekBack
    rw [ht]
    show (getNode s.store t).map (·.elem) = _
    rw [hg]
    simp

lemma chainIds_aux (l : List (Nat × α)) :
    ∀ (p : Option Nat) (st : Store α), (idsOf l).Nodup →
      (∀ j n, getNode (linkup p l) j = some n → getNode st j = some n) →
      ChainIds st p (l.head?.map Prod.fst) (idsOf l) := by
  induction l with
  | nil =>
      intro p st _ _
      show (none : Option Nat) = none
      rfl
  | cons a rest ih =>
      obtain ⟨i, e⟩ := a
      intro p st hnd hsub
      rw [idsOf_cons, List.nodup_cons] at hnd
      have hget : getNode st i = some ⟨e, nextId rest, p⟩ :=
        hsub i _ (getNode_linkup_self i e rest p)
      show ChainIds st p (some i) (i :: idsOf rest)
      refine ⟨rfl, ⟨e, nextId rest, p⟩, hget, rfl, ?_⟩
      have hsub2 : ∀ j n, getNode (linkup (some i) rest) j = some n →
          getNode st j = some n := by
        intro j n hj
        have hjmem : j ∈ idsOf rest := by
          by_contra hnm
          rw [getNode_linkup_not_mem rest (some i) j hnm] at hj
          cases hj
        have hji : j ≠ i := fun hf => hnd.1 (hf ▸ hjmem)
        refine hsub j n ?_
        rw [getNode_linkup_ne i e rest p j hji]
        exact hj
      exact ih (some i) st hnd.2 hsub2

lemma mem_drop_one_iff {ids : List Nat} {x : Nat} (hx : x ∈ ids) (hnd : ids.Nodup) :
    x ∈ ids.drop 1 ↔ ids.head? ≠ some x := by
  cases ids with
  | nil => cases hx
  | cons i0 tl =>
      rw [List.nodup_cons] at hnd
      have hdrop : (i0 :: tl).drop 1 = tl := rfl
      rw [hdrop, List.head?_cons]
      by_cases hxi : x = i0
      · subst hxi
        simp [hnd.1]
      · have hmem : x ∈ tl := by
          rcases List.mem_cons.mp hx with h | h
          · exact absurd h hxi
          · exact h
        have hne : (some i0 : Option Nat) ≠ some x := fun h =>
          hxi (Option.some.inj h).symm
        simp [hmem, hne]

lemma mem_dropLast_iff {ids : List Nat} {x : Nat} (hx : x ∈ ids) (hnd : ids.Nodup) :
    x ∈ ids.dropLast ↔ ids.getLast? ≠ some x := by
  rcases List.eq_nil_or_concat ids with rfl | ⟨init, la, hleq⟩
  · cases hx
  · rw [List.concat_eq_append] at hleq
    subst hleq
    rw [List.dropLast_concat]
    have hgl : (init ++ [la]).getLast? = some la := by simp
    rw [hgl]
    rw [List.nodup_append] at hnd
    by_cases hxl : x = la
    · subst hxl
      have hnotinit : x ∉ init := fun hm => hnd.2.2 hm (by simp)
      simp [hnotinit]
    · have hmem : x ∈ init := by
        rcases List.mem_append.mp hx with h | h
        · exact h
        · simp at h
          exact absurd h hxl
      have hne : (some la : Option Nat) ≠ some x := fun h =>
        hxl (Option.some.inj h).symm
      simp [hmem, hne]

/-! ### Claim theorems -/

/-- C1: for every sequence of push/pop operations performed on one end
only of the fourth.rs deque (all front or all back), the pop results are
exactly those of the canonical LIFO stack on the list's abstract
contents, and popping an empty list returns `none` twice in a row while
leaving the list unchanged. -/
theorem claim1_lifo_one_end (s : List4 α) (h : Reachable s) :
    (∀ ops : List (Op α),
      (runFront ops s).1 = (runStack ops (toList s)).1 ∧
      (runBack ops s).1 = (runStack ops (toList s).reverse).1) ∧
    (toList s = [] →
      popFront s = (none, s) ∧ popFront (popFront s).2 = (none, (popFront s).2) ∧
      popBack s = (none, s) ∧ popBack (popBack s).2 = (none, (popBack s).2)) := by
  obtain ⟨l, hl⟩ := inv_reachable h
  have htl := toList_shape hl
  constructor
  · intro ops
    constructor
    · rw [htl]
      exact (runFront_sim ops s l hl).1
    · rw [htl]
      exact (runBack_sim ops s l hl).1
  · intro hemp
    rw [htl] at hemp
    have hlnil : l = [] := List.map_eq_nil_iff.mp hemp
    subst hlnil
    have h1 := shape_popFront_nil hl
    have h2 := shape_popBack_nil hl
    refine ⟨h1, ?_, h2, ?_⟩
    · rw [h1]
      exact h1
    · rw [h2]
      exact h2

theorem claim1_witness :
    (runFront [Op.push 1, Op.push 2, Op.pop, Op.pop, Op.pop]
        (List4.new : List4 Int)).1 =
      (runStack [Op.push 1, Op.push 2, Op.pop, Op.pop, Op.pop]
        (toList (List4.new : List4 Int))).1 :=
  ((claim1_lifo_one_end List4.new Reachable.new).1 _).1

/-- C2: after every public operation of the fourth.rs deque, the
structural invariant holds: some duplicate-free finite id sequence is
linked from `head` to `tail` by mutually consistent `next`/`prev` hops
(`ChainIds`), ending in a `None` link; an empty chain means `head` and
`tail` are both `none`, and `head` is `none` exactly when `tail` is. -/
theorem claim2_structural_invariant (s : List4 α) (h : Reachable s) :
    ∃ ids : List Nat, ids.Nodup ∧ ChainIds s.store none s.head ids ∧
      s.tail = ids.getLast? ∧ (ids = [] ↔ s.head = none) ∧
      (s.head = none ↔ s.tail = none) := by
  obtain ⟨l, hl⟩ := inv_reachable h
  have hnd := hl.2.2.2.1
  refine ⟨idsOf l, hnd, ?_, ?_, ?_, ?_⟩
  · have hc := chainIds_aux l none s.store hnd
      (fun j n hj => by rw [Shape.getNodeEq hl j]; exact hj)
    have hhm : (idsOf l).head? = l.head?.map Prod.fst := List.head?_map _ _
    rw [← hl.2.1] at hc
    exact hc
  · rw [hl.2.2.1]
    have : (idsOf l).getLast? = l.getLast?.map Prod.fst := by
      simp [idsOf, List.getLast?_map]
    rw [this]
  · cases l with
    | nil => simp [idsOf, hl.2.1]
    | cons a rest =>
        obtain ⟨i, e⟩ := a
        constructor
        · intro hids
          rw [idsOf_cons] at hids
          cases hids
        · intro hh
          rw [Shape.headEq hl] at hh
          cases hh
  · cases l with
    | nil =>
        have h1 : s.head = none := by simpa using hl.2.1
        have h2 : s.tail = none := by simpa using hl.2.2.1
        simp [h1, h2]
    | cons a rest =>
        obtain ⟨i, e⟩ := a
        have h1 : s.head = some i := Shape.headEq hl
        have h2 : ∃ t, s.tail = some t := by
          have := hl.2.2.1
          rw [List.getLast?_eq_getLast_of_ne_nil (List.cons_ne_nil _ _)] at this
          exact ⟨_, by rw [this]; rfl⟩
        obtain ⟨t, h2⟩ := h2
        simp [h1, h2]

theorem claim2_witness :
    ∃ ids : List Nat, ids.Nodup ∧
      ChainIds (pushFront (List4.new : List4 Int) 5).store none
        (pushFront (List4.new : List4 Int) 5).head ids ∧
      (pushFront (List4.new : List4 Int) 5).tail = ids.getLast? ∧
      (ids = [] ↔ (pushFront (List4.new : List4 Int) 5).head = none) ∧
      ((pushFront (List4.new : List4 Int) 5).head = none ↔
        (pushFront (List4.new : List4 Int) 5).tail = none) :=
  claim2_structural_invariant _ (Reachable.pushFront 5 Reachable.new)

/-- C6: in `pop_front`/`pop_back` of the fourth.rs deque, at the point of
`Rc::try_unwrap(..).ok().unwrap()` the removed node has no owning
reference left in the structure, so the unwrap never panics on any list
built through the public API. -/
theorem claim6_unwrap_never_panics (s : List4 α) (h : Reachable s) :
    popFrontPanics s = false ∧ popBackPanics s = false := by
  obtain ⟨l, hl⟩ := inv_reachable h
  exact ⟨popFrontPanicsFalse hl, popBackPanicsFalse hl⟩

theorem claim6_witness :
    popFrontPanics (pushBack (pushFront (List4.new : List4 Int) 1) 2) = false ∧
    popBackPanics (pushBack (pushFront (List4.new : List4 Int) 1) 2) = false :=
  claim6_unwrap_never_panics _
    (Reachable.pushBack 2 (Reachable.pushFront 1 Reachable.new))

/-- C8: dropping the fourth.rs deque runs the iterative
pop-front-until-`None` loop (`List4.dropAll` models `Drop::drop`, line
188), which releases the nodes one by one and ends with the list fully
empty: no allocated node remains and `head` and `tail` are cleared. -/
theorem claim8_teardown (s : List4 α) (h : Reachable s) :
    (List4.dropAll s).store = [] ∧ (List4.dropAll s).head = none ∧
      (List4.dropAll s).tail = none := by
  obtain ⟨l, hl⟩ := inv_reachable h
  exact dropAll_empties hl

theorem claim8_witness :
    (List4.dropAll (pushFront (pushFront (List4.new : List4 Int) 1) 2)).store = [] ∧
    (List4.dropAll (pushFront (pushFront (List4.new : List4 Int) 1) 2)).head = none ∧
    (List4.dropAll (pushFront (pushFront (List4.new : List4 Int) 1) 2)).tail = none :=
  claim8_teardown _ (Reachable.pushFront 2 (Reachable.pushFront 1 Reachable.new))

/-- C3: owning-reference counts after every public call of the fourth.rs
deque.  For every allocated node `x`: an interior node (neither `head`
nor `tail`) is the target of exactly two neighbour links and none from
the list struct; a boundary node of a longer list is the target of
exactly one neighbour link plus one reference held by the list struct;
the node of a singleton list is referenced exactly twice, both by the
list struct (`head` and `tail`), and by no node's `next`/`prev` at
all (in particular never by itself). -/
theorem claim3_two_owners (s : List4 α) (h : Reachable s) (x : Nat)
    (hx : (getNode s.store x).isSome = true) :
    (s.head ≠ some x → s.tail ≠ some x →
      listRefs s x = 0 ∧ fieldRefs s.store x = 2) ∧
    (s.head = some x → s.tail ≠ some x →
      listRefs s x = 1 ∧ fieldRefs s.store x = 1) ∧
    (s.head ≠ some x → s.tail = some x →
      listRefs s x = 1 ∧ fieldRefs s.store x = 1) ∧
    (s.head = some x → s.tail = some x →
      listRefs s x = 2 ∧ fieldRefs s.store x = 0) := by
  obtain ⟨l, hl⟩ := inv_reachable h
  have hnd := hl.2.2.2.1
  have hxm : x ∈ idsOf l := by
    by_contra hnm
    rw [Shape.getNodeEq hl x, getNode_linkup_not_mem l none x hnm] at hx
    cases hx
  have hfr : fieldRefs s.store x =
      (if x ∈ (idsOf l).drop 1 then 1 else 0) +
        (if x ∈ (idsOf l).dropLast then 1 else 0) := by
    rw [fieldRefs_perm hl.1 x, fieldRefs_linkup l none x hnd]
    simp
  have hh : s.head = (idsOf l).head? := by
    rw [hl.2.1]
    exact (List.head?_map _ _).symm
  have ht : s.tail = (idsOf l).getLast? := by
    rw [hl.2.2.1]
    simp [idsOf, List.getLast?_map]
  have hA2 : x ∈ (idsOf l).drop 1 ↔ s.head ≠ some x := by
    rw [hh]
    exact mem_drop_one_iff hxm hnd
  have hB2 : x ∈ (idsOf l).dropLast ↔ s.tail ≠ some x := by
    rw [ht]
    exact mem_dropLast_iff hxm hnd
  refine ⟨?_, ?_, ?_, ?_⟩
  · intro h1 h2
    refine ⟨by simp [listRefs, h1, h2], ?_⟩
    rw [hfr, if_pos (hA2.mpr h1), if_pos (hB2.mpr h2)]
  · intro h1 h2
    have hm1 : x ∉ (idsOf l).drop 1 := fun hm => (hA2.mp hm) h1
    refine ⟨by simp [listRefs, h1, h2], ?_⟩
    rw [hfr, if_neg hm1, if_pos (hB2.mpr h2)]
  · intro h1 h2
    have hm2 : x ∉ (idsOf l).dropLast := fun hm => (hB2.mp hm) h2
    refine ⟨by simp [listRefs, h1, h2], ?_⟩
    rw [hfr, if_pos (hA2.mpr h1), if_neg hm2]
  · intro h1 h2
    have hm1 : x ∉ (idsOf l).drop 1 := fun hm => (hA2.mp hm) h1
    have hm2 : x ∉ (idsOf l).dropLast := fun hm => (hB2.mp hm) h2
    refine ⟨by simp [listRefs, h1, h2], ?_⟩
    rw [hfr, if_neg hm1, if_neg hm2]

theorem claim3_witness :
    (getNode (pushFront (List4.new : List4 Int) 1).store 0).isSome = true ∧
    (listRefs (pushFront (List4.new : List4 Int) 1) 0 = 2 ∧
      fieldRefs (pushFront (List4.new : List4 Int) 1).store 0 = 0) :=
  ⟨by decide,
    (claim3_two_owners _ (Reachable.pushFront 1 Reachable.new) 0 (by decide)).2.2.2
      (by decide) (by decide)⟩

/-- C4: removal semantics of `pop_front`/`pop_back` of the fourth.rs
deque on every API-reachable list.  `pop_front` returns `none` on the
empty list and leaves it unchanged; otherwise it deallocates the head
node, returns its payload, and either promotes the successor (whose
`prev` is cleared) to `head` with `tail` untouched, or, when the removed
node had no successor, clears both `head` and `tail`.  `pop_back` is the
mirror image with `head`/`tail` and `next`/`prev` exchanged. -/
theorem claim4_pop_removal (s : List4 α) (h : Reachable s) :
    (s.head = none → popFront s = (none, s)) ∧
    (∀ i n, s.head = some i → getNode s.store i = some n →
      (popFront s).1 = some n.elem ∧
      getNode (popFront s).2.store i = none ∧
      (∀ j, n.next = some j → (popFront s).2.head = some j ∧
        (∃ m, getNode (popFront s).2.store j = some m ∧ m.prev = none) ∧
        (popFront s).2.tail = s.tail) ∧
      (n.next = none → (popFront s).2.head = none ∧ (popFront s).2.tail = none)) ∧
    (s.tail = none → popBack s = (none, s)) ∧
    (∀ i n, s.tail = some i → getNode s.store i = some n →
      (popBack s).1 = some n.elem ∧
      getNode (popBack s).2.store i = none ∧
      (∀ j, n.prev = some j → (popBack s).2.tail = some j ∧
        (∃ m, getNode (popBack s).2.store j = some m ∧ m.next = none) ∧
        (popBack s).2.head = s.head) ∧
      (n.prev = none → (popBack s).2.head = none ∧ (popBack s).2.tail = none)) := by
  obtain ⟨l, hl⟩ := inv_reachable h
  refine ⟨fun hh => popFront_empty hh, ?_, fun ht => popBack_empty ht, ?_⟩
  · intro i n hh hg
    cases l with
    | nil =>
        have h0 : s.head = none := by simpa using hl.2.1
        rw [h0] at hh
        cases hh
    | cons a rest =>
        obtain ⟨i0, e0⟩ := a
        have hi : i = i0 := by
          have hsh := Shape.headEq hl
          rw [hsh] at hh
          exact (Option.some.inj hh).symm
        subst hi
        have hn : n = ⟨e0, nextId rest, none⟩ := by
          have hgn := Shape.getHeadNode hl
          rw [hg] at hgn
          exact Option.some.inj hgn
        subst hn
        obtain ⟨hv, hs2⟩ := shape_popFront_cons hl
        have hndc := hl.2.2.2.1
        rw [idsOf_cons, List.nodup_cons] at hndc
        refine ⟨hv, ?_, ?_, ?_⟩
        · rw [Shape.getNodeEq hs2 i, getNode_linkup_not_mem rest none i hndc.1]
        · intro j hj
          change nextId rest = some j at hj
          cases rest with
          | nil => cases hj
          | cons b rest2 =>
              obtain ⟨i1, e1⟩ := b
              have hj1 : i1 = j := by
                change some i1 = some j at hj
                exact Option.some.inj hj
              subst hj1
              refine ⟨Shape.headEq hs2, ⟨_, Shape.getHeadNode hs2, rfl⟩, ?_⟩
              have t1 := hs2.2.2.1
              have t2 := hl.2.2.1
              rw [List.getLast?_cons_cons] at t2
              rw [t1, t2]
        · intro hj0
          change nextId rest = none at hj0
          cases rest with
          | cons b rest2 =>
              obtain ⟨i1, e1⟩ := b
              change some i1 = none at hj0
              cases hj0
          | nil =>
              exact ⟨by simpa using hs2.2.1, by simpa using hs2.2.2.1⟩
  · intro i n ht hg
    rcases List.eq_nil_or_concat l with rfl | ⟨l0, tb, hleq⟩
    · have h0 : s.tail = none := by simpa using hl.2.2.1
      rw [h0] at ht
      cases ht
    · obtain ⟨t, et⟩ := tb
      rw [List.concat_eq_append] at hleq
      subst hleq
      have hi : i = t := by
        have hst := Shape.tailEqSnoc hl
        rw [hst] at ht
        exact (Option.some.inj ht).symm
      subst hi
      have hndc := hl.2.2.2.1
      rw [idsOf_append, List.nodup_append] at hndc
      have htnotl0 : i ∉ idsOf l0 := by
        intro hm
        exact hndc.2.2 hm (by simp [idsOf])
      have hn : n = ⟨et, none, l0.getLast?.map Prod.fst⟩ := by
        rcases List.eq_nil_or_concat l0 with rfl | ⟨l00, tpb, hleq0⟩
        · have hgn : getNode s.store i = some ⟨et, none, none⟩ := by
            have hsing : Shape s [(i, et)] := by simpa using hl
            exact Shape.getHeadNode hsing
          rw [hg] at hgn
          exact Option.some.inj hgn
        · obtain ⟨tp, ep⟩ := tpb
          rw [List.concat_eq_append] at hleq0
          subst hleq0
          have hgn := Shape.getTailNodeSnoc hl
          rw [hg] at hgn
          have hpr : ((l00 ++ [(tp, ep)]).getLast?).map Prod.fst = some tp := by
            simp
          rw [← hpr] at hgn
          exact Option.some.inj hgn
      subst hn
      obtain ⟨hv, hs2⟩ := shape_popBack_snoc hl
      refine ⟨hv, ?_, ?_, ?_⟩
      · rw [Shape.getNodeEq hs2 i, getNode_linkup_not_mem l0 none i htnotl0]
      · intro j hj
        change l0.getLast?.map Prod.fst = some j at hj
        rcases List.eq_nil_or_concat l0 with rfl | ⟨l00, tpb, hleq0⟩
        · cases hj
        · obtain ⟨tp, ep⟩ := tpb
          rw [List.concat_eq_append] at hleq0
          subst hleq0
          have hjtp : tp = j := by
            have hpr : ((l00 ++ [(tp, ep)]).getLast?).map Prod.fst = some tp := by
              simp
            rw [hpr] at hj
            exact Option.some.inj hj
          have hjtp2 : j = tp := hjtp.symm
          subst hjtp2
          have hjmem : j ∈ idsOf (l00 ++ [(j, ep)]) := by
            rw [idsOf_append]
            exact List.mem_append_right _ (by simp [idsOf])
          have hex : ∃ m, getNode (popBack s).2.store j = some m := by
            rw [Shape.getNodeEq hs2 j]
            exact getNode_linkup_mem (l00 ++ [(j, ep)]) none j hjmem
          obtain ⟨m, hm⟩ := hex
          refine ⟨Shape.tailEqSnoc hs2, ⟨m, hm, ?_⟩, ?_⟩
          · have hmemq : (j, m) ∈ linkup none (l00 ++ [(j, ep)]) := by
              have hm2 := hm
              rw [Shape.getNodeEq hs2 j] at hm2
              exact mem_of_getNode_eq_some hm2
            exact linkup_last_next (l00 ++ [(j, ep)]) none j ep (by simp)
              hndc.1 (j, m) hmemq rfl
          · have t1 := hs2.2.1
            have t2 := hl.2.1
            rw [List.head?_append_of_ne_nil _ (by simp : l00 ++ [(j, ep)] ≠ [])] at t2
            rw [t1, t2]
      · intro hj0
        change l0.getLast?.map Prod.fst = none at hj0
        rcases List.eq_nil_or_concat l0 with rfl | ⟨l00, tpb, hleq0⟩
        · exact ⟨by simpa using hs2.2.1, by simpa using hs2.2.2.1⟩
        · obtain ⟨tp, ep⟩ := tpb
          rw [List.concat_eq_append] at hleq0
          subst hleq0
          have hpr : ((l00 ++ [(tp, ep)]).getLast?).map Prod.fst = some tp := by
            simp
          rw [hpr] at hj0
          cases hj0

theorem claim4_witness :
    ((pushFront (pushFront (List4.new : List4 Int) 1) 2).head = some 1 ∧
      getNode (pushFront (pushFront (List4.new : List4 Int) 1) 2).store 1 =
        some ⟨2, some 0, none⟩) ∧
    (popFront (pushFront (pushFront (List4.new : List4 Int) 1) 2)).1 = some 2 ∧
    getNode (popFront (pushFront (pushFront (List4.new : List4 Int) 1) 2)).2.store 1 =
      none :=
  ⟨⟨by decide, by decide⟩, by
    have hc := (claim4_pop_removal (pushFront (pushFront (List4.new : List4 Int) 1) 2)
      (Reachable.pushFront 2 (Reachable.pushFront 1 Reachable.new))).2.1
      1 ⟨2, some 0, none⟩ (by decide) (by decide)
    exact ⟨hc.1, hc.2.1⟩⟩

/-- C5: the bidirectional `IntoIter` of fourth.rs.  Concretely, after
`push_front(1); push_front(2); push_front(3)` the calls yield
`next()=3`, `next_back()=1`, `next()=2`, `next_back()=None`,
`next()=None` (the repository's own `into_iter` test).  In general, once
a single node remains, the next call from either direction returns that
value and empties the structure, and on an exhausted iterator both
`next` and `next_back` return `none` on every subsequent call, leaving
the state unchanged. -/
theorem claim5_bidirectional_iterator :
    (let it0 := List4.intoIter
        (pushFront (pushFront (pushFront (List4.new : List4 Int) 1) 2) 3)
     let r1 := it0.next
     let r2 := r1.2.nextBack
     let r3 := r2.2.next
     let r4 := r3.2.nextBack
     let r5 := r4.2.next
     r1.1 = some 3 ∧ r2.1 = some 1 ∧ r3.1 = some 2 ∧ r4.1 = none ∧ r5.1 = none) ∧
    (∀ (s : List4 α) (v : α), Reachable s → toList s = [v] →
      ((IntoIter.next ⟨s⟩).1 = some v ∧ toList (IntoIter.next ⟨s⟩).2.list = [] ∧
        (IntoIter.next ⟨s⟩).2.list.head = none ∧
        (IntoIter.next ⟨s⟩).2.list.tail = none) ∧
      ((IntoIter.nextBack ⟨s⟩).1 = some v ∧
        toList (IntoIter.nextBack ⟨s⟩).2.list = [] ∧
        (IntoIter.nextBack ⟨s⟩).2.list.head = none ∧
        (IntoIter.nextBack ⟨s⟩).2.list.tail = none)) ∧
    (∀ s : List4 α, Reachable s → toList s = [] →
      IntoIter.next ⟨s⟩ = (none, ⟨s⟩) ∧ IntoIter.nextBack ⟨s⟩ = (none, ⟨s⟩)) := by
  refine ⟨by decide, ?_, ?_⟩
  · intro s v h htv
    obtain ⟨l, hl⟩ := inv_reachable h
    rw [toList_shape hl] at htv
    obtain ⟨i, rfl⟩ : ∃ i, l = [(i, v)] := by
      cases l with
      | nil => cases htv
      | cons a rest =>
          obtain ⟨i0, e0⟩ := a
          rw [List.map_cons] at htv
          injection htv with h1 h2
          subst h1
          have : rest = [] := List.map_eq_nil_iff.mp h2
          subst this
          exact ⟨i0, rfl⟩
    obtain ⟨hv, hs2⟩ := shape_popFront_cons hl
    have hlb : Shape s ([] ++ [(i, v)]) := hl
    obtain ⟨hvb, hs2b⟩ := shape_popBack_snoc hlb
    constructor
    · refine ⟨hv, ?_, ?_, ?_⟩
      · show toList (popFront s).2 = []
        rw [toList_shape hs2]
        rfl
      · show (popFront s).2.head = none
        simpa using hs2.2.1
      · show (popFront s).2.tail = none
        simpa using hs2.2.2.1
    · refine ⟨hvb, ?_, ?_, ?_⟩
      · show toList (popBack s).2 = []
        rw [toList_shape hs2b]
        rfl
      · show (popBack s).2.head = none
        simpa using hs2b.2.1
      · show (popBack s).2.tail = none
        simpa using hs2b.2.2.1
  · intro s h htv
    obtain ⟨l, hl⟩ := inv_reachable h
    rw [toList_shape hl] at htv
    have hlnil : l = [] := List.map_eq_nil_iff.mp htv
    subst hlnil
    have h1 := shape_popFront_nil hl
    have h2 := shape_popBack_nil hl
    constructor
    · show ((popFront s).1, (⟨(popFront s).2⟩ : IntoIter α)) = (none, ⟨s⟩)
      rw [h1]
    · show ((popBack s).1, (⟨(popBack s).2⟩ : IntoIter α)) = (none, ⟨s⟩)
      rw [h2]

theorem claim5_witness :
    IntoIter.next (⟨List4.new⟩ : IntoIter Int) = (none, ⟨List4.new⟩) ∧
    IntoIter.nextBack (⟨List4.new⟩ : IntoIter Int) = (none, ⟨List4.new⟩) :=
  claim5_bidirectional_iterator.2.2 List4.new Reachable.new rfl

/-- C7: the `RefCell` runtime check in the peek operations of fourth.rs.
Requesting the exclusive borrow taken by `peek_front_mut` /
`peek_back_mut` while any borrow of the same node is outstanding (shared
`reading` or exclusive `writing`) fails immediately with an aliasing
violation instead of returning a value; peeks and pops on the empty list
always signal absence through the optional return and never take a fatal
path. -/
theorem claim7_borrow_conflict :
    (∀ (s : List4 α) (led : Nat → BorrowFlag) (i : Nat), s.head = some i →
      led i ≠ BorrowFlag.free →
      peekFrontMutChecked s led = Except.error Fault.aliasingViolation) ∧
    (∀ (s : List4 α) (led : Nat → BorrowFlag) (i : Nat), s.tail = some i →
      led i ≠ BorrowFlag.free →
      peekBackMutChecked s led = Except.error Fault.aliasingViolation) ∧
    (∀ (s : List4 α) (led : Nat → BorrowFlag), s.head = none →
      peekFrontMutChecked s led = Except.ok none ∧
      peekFrontChecked s led = Except.ok none ∧ popFront s = (none, s)) ∧
    (∀ (s : List4 α) (led : Nat → BorrowFlag), s.tail = none →
      peekBackMutChecked s led = Except.ok none ∧
      peekBackChecked s led = Except.ok none ∧ popBack s = (none, s)) := by
  refine ⟨?_, ?_, ?_, ?_⟩
  · intro s led i hh hfl
    unfold peekFrontMutChecked
    rw [hh]
    dsimp only
    cases hld : led i with
    | free => exact absurd hld hfl
    | reading n => rfl
    | writing => rfl
  · intro s led i ht hfl
    unfold peekBackMutChecked
    rw [ht]
    dsimp only
    cases hld : led i with
    | free => exact absurd hld hfl
    | reading n => rfl
    | writing => rfl
  · intro s led hh
    refine ⟨?_, ?_, popFront_empty hh⟩
    · unfold peekFrontMutChecked
      rw [hh]
    · unfold peekFrontChecked
      rw [hh]
  · intro s led ht
    refine ⟨?_, ?_, popBack_empty ht⟩
    · unfold peekBackMutChecked
      rw [ht]
    · unfold peekBackChecked
      rw [ht]

theorem claim7_witness :
    peekFrontMutChecked (pushFront (List4.new : List4 Int) 7)
      (fun _ => BorrowFlag.reading 1) = Except.error Fault.aliasingViolation :=
  claim7_borrow_conflict.1 _ _ 0 (by decide) (by decide)

/-- C9 counterexample: the fifth.rs sketch is a FIFO queue, not a deque
with the fourth.rs operation surface.  After pushing 1 then 2, its `pop`
returns 1, while the fourth.rs deque driven through the claimed
corresponding front operations (`push_front`/`pop_front`) returns 2, so
the observable behaviour is not identical. -/
theorem claim9_counterexample :
    (runFifth [Op.push 1, Op.push 2, Op.pop] (FifthList.new : FifthList Int)).1 =
      [some 1] ∧
    (runFront [Op.push 1, Op.push 2, Op.pop] (List4.new : List4 Int)).1 =
      [some 2] ∧
    (runFifth [Op.push 1, Op.push 2, Op.pop] (FifthList.new : FifthList Int)).1 ≠
      (runFront [Op.push 1, Op.push 2, Op.pop] (List4.new : List4 Int)).1 := by
  refine ⟨by decide, by decide, by decide⟩

/-- C9 amended: the fifth.rs sketch exposes only `push` and `pop` and is
a singly-linked FIFO queue; `push` pushes at the tail end and `pop` pops
at the head, matching the fourth.rs deque's `push_back` and `pop_front`.
Under that correspondence every sequence of queue operations produces
identical pop results on the two structures. -/
theorem claim9_amended (ops : List (Op α)) :
    (runFifth ops (FifthList.new : FifthList α)).1 =
      (runQueue4 ops (List4.new : List4 α)).1 :=
  fifth_queue_sim ops FifthList.new List4.new [] shape_new rfl

/-- C10: writing `v` through the exclusive borrow returned by
`peek_front_mut` of fourth.rs updates the stored head element in place,
so a subsequent `pop_front` returns `Some v`; the plain `peek_front` and
`peek_back` are `&self` reads that return the first respectively last
element of the list's contents and change nothing. -/
theorem claim10_peek_write (s : List4 α) (h : Reachable s) (v : α) :
    (toList s ≠ [] →
      (popFront (pokeFront s v)).1 = some v ∧
      toList (pokeFront s v) = v :: (toList s).tail) ∧
    peekFront s = (toList s).head? ∧
    peekBack s = (toList s).getLast? := by
  obtain ⟨l, hl⟩ := inv_reachable h
  have htl := toList_shape hl
  refine ⟨?_, ?_, ?_⟩
  · intro hne
    cases l with
    | nil =>
        rw [htl] at hne
        simp at hne
    | cons a rest =>
        obtain ⟨i0, e0⟩ := a
        have hp := shape_pokeFront_cons hl v
        constructor
        · exact (shape_popFront_cons hp).1
        · rw [toList_shape hp, htl]
          rfl
  · rw [peekFront_shape hl, htl]
  · rw [peekBack_shape hl, htl]

theorem claim10_witness :
    (popFront (pokeFront (pushFront (List4.new : List4 Int) 7) 9)).1 = some 9 :=
  ((claim10_peek_write _ (Reachable.pushFront 7 Reachable.new) 9).1 (by decide)).1
